import Mathlib

/-!
# Verification of the KaMinPar partitioner core

Shallow embedding of the multilevel graph partitioner's core data structures
and refinement algorithms, together with proofs of the specification claims.

Machine integers are modelled as `Nat`/`Int`; where unsigned wraparound
matters it is made explicit with `% 2 ^ w`.
-/

namespace KaMinPar

/-! ## Graph model

An undirected weighted graph in adjacency-list form.  `adj` holds, for each
node `u < numNodes`, the list of half-edges `(v, w)` leaving `u`.  This is the
logical view of the (compressed) CSR representation: `neighbors(u)` yields the
pairs `(edge, v)` and `edge_weight` the weight of each half-edge.
-/

structure Graph where
  numNodes : Nat
  adj : List (List (Nat × Int))
deriving Repr

/-- Sum of the weights of a list of half-edges. -/
def sumW (l : List (Nat × Int)) : Int :=
  (l.map Prod.snd).sum

namespace Graph

/-- The adjacency list of node `u` (the decoded `neighbors(u)` sequence). -/
def nbrs (G : Graph) (u : Nat) : List (Nat × Int) :=
  G.adj.getD u []

/-- Total edge weight of the half-edges from `u` to `v`
(summing parallel edges). -/
def wTo (G : Graph) (u v : Nat) : Int :=
  sumW ((G.nbrs u).filter (fun p => p.1 = v))

/-- Weighted degree of `u`: the sum of all incident half-edge weights. -/
def wDeg (G : Graph) (u : Nat) : Int :=
  sumW (G.nbrs u)

/-- The edge list is symmetric: for every `(u → v, w)` there is `(v → u, w)`;
stated on aggregated weights between nodes of the graph, which is what the
proofs need. -/
def Symm (G : Graph) : Prop :=
  ∀ u, u < G.numNodes → ∀ v, v < G.numNodes → G.wTo u v = G.wTo v u

/-- All half-edge targets are nodes of the graph. -/
def TargetsLt (G : Graph) : Prop :=
  ∀ u, u < G.numNodes → ∀ p ∈ G.nbrs u, p.1 < G.numNodes

instance (G : Graph) : Decidable G.Symm := by
  unfold Graph.Symm; infer_instance

instance (G : Graph) : Decidable G.TargetsLt := by
  unfold Graph.TargetsLt; infer_instance

end Graph

/-! ## Partition

A partition is a map from nodes to blocks (`block[u] ∈ [0, k)`), modelled as a
plain function. -/

abbrev Partition := Nat → Nat

/-- `conn G p u b` is the total edge weight from `u` to neighbors currently in
block `b` — the reference value of the gain-cache entry `wdeg[u, b]`. -/
def conn (G : Graph) (p : Partition) (u b : Nat) : Int :=
  sumW ((G.nbrs u).filter (fun q => p q.1 = b))

/-! ## Dense gain cache (`DenseGainCache`, gain_cache.h)

The source allocates a flat array `_gain_cache[0 .. n*k)` with
`index(node, b) = node * _k + b`, and `_weighted_degrees[0 .. n)`.  We model
the two arrays as functions updated pointwise, exactly mirroring the loops of
`recompute_node` and `move`. -/

structure DenseGainCache where
  k : Nat
  n : Nat
  gainCacheArr : Nat → Int
  weightedDegrees : Nat → Int

namespace DenseGainCache

/-- `index(node, b) = node * _k + b`. -/
def index (C : DenseGainCache) (node b : Nat) : Nat :=
  node * C.k + b

/-- `weighted_degree_to(node, block)`: read `_gain_cache[index(node, block)]`. -/
def weightedDegreeTo (C : DenseGainCache) (node b : Nat) : Int :=
  C.gainCacheArr (C.index node b)

/-- `gain(node, from, to) = wdeg[node, to] - wdeg[node, from]`. -/
def gain (C : DenseGainCache) (node bFrom bTo : Nat) : Int :=
  C.weightedDegreeTo node bTo - C.weightedDegreeTo node bFrom

/-- `is_border_node(node, block) ⇔ deg[node] ≠ wdeg[node, block]`. -/
def isBorderNode (C : DenseGainCache) (node b : Nat) : Bool :=
  C.weightedDegrees node ≠ C.weightedDegreeTo node b

/-- `reset()`: zero the whole gain-cache array. -/
def reset (C : DenseGainCache) : DenseGainCache :=
  { C with gainCacheArr := fun _ => 0 }

/-- Body of `recompute_node`'s neighbor loop, adding one half-edge `(v, w)` of
`u`: `_gain_cache[index(u, block(v))] += w; _weighted_degrees[u] += w`. -/
def recomputeStep (u : Nat) (p : Partition) (C : DenseGainCache)
    (q : Nat × Int) : DenseGainCache :=
  { C with
    gainCacheArr :=
      Function.update C.gainCacheArr (C.index u (p q.1))
        (C.gainCacheArr (C.index u (p q.1)) + q.2),
    weightedDegrees :=
      Function.update C.weightedDegrees u (C.weightedDegrees u + q.2) }

/-- `recompute_node(p_graph, u)`: reset `_weighted_degrees[u]`, then fold the
neighbor loop. -/
def recomputeNode (G : Graph) (p : Partition) (C : DenseGainCache)
    (u : Nat) : DenseGainCache :=
  (G.nbrs u).foldl (recomputeStep u p)
    { C with weightedDegrees := Function.update C.weightedDegrees u 0 }

/-- `recompute_all`: run `recompute_node` for every node. -/
def recomputeAll (G : Graph) (p : Partition) (C : DenseGainCache) :
    DenseGainCache :=
  (List.range G.numNodes).foldl (recomputeNode G p) C

/-- `initialize(p_graph)`: `reset()` then `recompute_all(p_graph)`.
(Named `initCache` in this development.) -/
def initCache (G : Graph) (p : Partition) (C : DenseGainCache) :
    DenseGainCache :=
  recomputeAll G p C.reset

/-- Body of `move`'s neighbor loop for the half-edge `(v, w)`:
subtract `w` from `_gain_cache[index(v, from)]` and add it to
`_gain_cache[index(v, to)]`. -/
def moveStep (bFrom bTo : Nat) (C : DenseGainCache) (q : Nat × Int) :
    DenseGainCache :=
  let C1 : DenseGainCache :=
    { C with
      gainCacheArr :=
        Function.update C.gainCacheArr (C.index q.1 bFrom)
          (C.gainCacheArr (C.index q.1 bFrom) - q.2) }
  { C1 with
    gainCacheArr :=
      Function.update C1.gainCacheArr (C1.index q.1 bTo)
        (C1.gainCacheArr (C1.index q.1 bTo) + q.2) }

/-- `move(p_graph, node, from, to)`: fold the neighbor loop of `node`. -/
def move (G : Graph) (C : DenseGainCache) (node bFrom bTo : Nat) :
    DenseGainCache :=
  (G.nbrs node).foldl (moveStep bFrom bTo) C

end DenseGainCache

/-- A fresh gain cache for `k` blocks and `n` nodes (both arrays zeroed;
the source leaves them uninitialized and `initialize` resets them). -/
def mkCache (k n : Nat) : DenseGainCache :=
  { k := k, n := n, gainCacheArr := fun _ => 0, weightedDegrees := fun _ => 0 }

/-- Apply a sequence of moves `(u, to)` to a gain cache and partition in
lock-step, the way a refiner does: each `move` call passes the node's current
block as `block_from`, and the partition is updated accordingly. -/
def applyMoves (G : Graph) :
    List (Nat × Nat) → DenseGainCache × Partition → DenseGainCache × Partition
  | [], s => s
  | m :: ms, s =>
      applyMoves G ms
        (s.1.move G m.1 (s.2 m.1) m.2, Function.update s.2 m.1 m.2)

/-- Gain-cache consistency: every cached entry `wdeg[u, b]` equals the actual
connectivity of `u` to block `b`, and every cached weighted degree is the
actual weighted degree. -/
def Consistent (G : Graph) (p : Partition) (C : DenseGainCache) : Prop :=
  (∀ u, u < G.numNodes → ∀ b, b < C.k →
    C.weightedDegreeTo u b = conn G p u b) ∧
  ∀ u, u < G.numNodes → C.weightedDegrees u = G.wDeg u

/-! ### The concrete path scenario of the spec (claim C2)

Graph of 4 nodes in a path 0-1-2-3, unit node and edge weights, partition
`[0, 1, 1, 0]`, with `k = 2`. -/

def pathGraph4 : Graph :=
  { numNodes := 4,
    adj := [[(1, 1)], [(0, 1), (2, 1)], [(1, 1), (3, 1)], [(2, 1)]] }

def pathPartition : Partition := fun u =>
  match u with
  | 0 => 0
  | 1 => 1
  | 2 => 1
  | 3 => 0
  | _ => 0

def pathEmptyCache : DenseGainCache :=
  { k := 2, n := 4, gainCacheArr := fun _ => 0, weightedDegrees := fun _ => 0 }

/-- The gain cache after `initialize` on the path scenario. -/
def pathCacheInit : DenseGainCache :=
  pathEmptyCache.initCache pathGraph4 pathPartition

/-- The gain cache after `move(1, 1 → 0)` on the path scenario. -/
def pathCacheMoved : DenseGainCache :=
  pathCacheInit.move pathGraph4 1 1 0

/-! ## Label-propagation refiner (`LabelPropagationRefiner::accept_cluster`)

The cluster-selection state passed to `accept_cluster`; the fields are those
the function reads (defined by the label-propagation base class).  For the
refiner, clusters are blocks and cluster weights are block weights.
`randomBool` is the value drawn from `state.local_rand.random_bool()`. -/

structure ClusterSelectionState where
  uWeight : Int
  currentGain : Int
  bestGain : Int
  currentCluster : Nat
  bestCluster : Nat
  initialCluster : Nat
  currentClusterWeight : Int
  bestClusterWeight : Int
  initialClusterWeight : Int
  randomBool : Bool
deriving Repr

namespace LabelPropagationRefiner

/-- The weight clause of `accept_cluster` (the last conjunct):
`current_cluster_weight + u_weight < current_max_weight ||
 current_overload < initial_overload ||
 current_cluster == initial_cluster`, with
`current_overload = current_cluster_weight − max(current)` and
`initial_overload = initial_cluster_weight − max(initial)`. -/
def weightClause (maxClusterWeight : Nat → Int)
    (s : ClusterSelectionState) : Bool :=
  (s.currentClusterWeight + s.uWeight
      < maxClusterWeight s.currentCluster) ||
  (s.currentClusterWeight - maxClusterWeight s.currentCluster
      < s.initialClusterWeight - maxClusterWeight s.initialCluster) ||
  (s.currentCluster == s.initialCluster)

/-- The gain clause of `accept_cluster` (the first conjunct):
prefer higher gain; on ties prefer smaller overload; on equal overloads
use the random bit. -/
def gainClause (maxClusterWeight : Nat → Int)
    (s : ClusterSelectionState) : Bool :=
  (s.currentGain > s.bestGain) ||
  (s.currentGain == s.bestGain &&
    ((s.currentClusterWeight - maxClusterWeight s.currentCluster
        < s.bestClusterWeight - maxClusterWeight s.bestCluster) ||
     ((s.currentClusterWeight - maxClusterWeight s.currentCluster
        == s.bestClusterWeight - maxClusterWeight s.bestCluster) &&
       s.randomBool)))

/-- `accept_cluster(state)`: the conjunction of the gain clause and the
weight clause, exactly as in the source. -/
def acceptCluster (maxClusterWeight : Nat → Int)
    (s : ClusterSelectionState) : Bool :=
  gainClause maxClusterWeight s && weightClause maxClusterWeight s

end LabelPropagationRefiner

/-- A concrete state for the C3 boundary counterexample: the candidate move
lands exactly at the target block's cap (9 + 1 = 10), the target is not the
initial block, and the source block is far below its cap. -/
def lpBoundaryState : ClusterSelectionState :=
  { uWeight := 1, currentGain := 1, bestGain := 0,
    currentCluster := 1, bestCluster := 0, initialCluster := 0,
    currentClusterWeight := 9, bestClusterWeight := 1,
    initialClusterWeight := 1, randomBool := false }

/-- Uniform block-weight cap of 10 for the C3 counterexample. -/
def lpCap10 : Nat → Int := fun _ => 10

/-- Uniform block-weight cap of 12 for the C3 witness. -/
def lpCap12 : Nat → Int := fun _ => 12

/-! ## JET filter phase tie-break (`JetRefiner::filter_bad_moves`)

For a node `u` with proposal `(gain_u, to_u)` examining a neighbor `v`, the
filter projects `v` to its target block iff
`gain_v > gain_u || (gain_v == gain_u && v < u)`. -/

/-- The condition under which the filter phase, run for node `u`, treats
neighbor `v` as already moved to its proposed target. -/
def jetTreatsAsMoved (gt : Nat → Int × Nat) (v u : Nat) : Bool :=
  ((gt v).1 > (gt u).1) || (((gt v).1 == (gt u).1) && v < u)

/-- An arbitrary proposal table (all gains equal) for the C5 witness. -/
def jetFlatProposals : Nat → Int × Nat := fun _ => (0, 0)

/-! ## FastResetArray (fast_reset_array.h)

A static array of `Value`s with a list of used entry positions; `clear()`
resets only the used entries.  The data vector is modelled as a function
(out-of-range accesses are guarded by `KASSERT(pos < _data.size())` in the
source). -/

structure FastResetArray (α : Type) where
  capacity : Nat
  data : Nat → α
  usedEntries : List Nat

namespace FastResetArray

/-- A freshly constructed array: `_data(capacity)` value-initializes every
entry to `Value()`, and `_used_entries` is empty. -/
def fraInit (α : Type) [Inhabited α] (cap : Nat) : FastResetArray α :=
  { capacity := cap, data := fun _ => default, usedEntries := [] }

/-- `get(pos)` (and the const `operator[]`): plain read. -/
def get {α : Type} (A : FastResetArray α) (pos : Nat) : α :=
  A.data pos

/-- `exists(pos)`: the source returns `_data[pos] == Value()`. -/
def existsEntry {α : Type} [Inhabited α] [DecidableEq α]
    (A : FastResetArray α) (pos : Nat) : Bool :=
  A.data pos = default

/-- `set(pos, v)`, i.e. `(*this)[pos] = v` through the non-const
`operator[]`, which pushes `pos` onto `_used_entries` when the entry still
holds the default-constructed value. -/
def set {α : Type} [Inhabited α] [DecidableEq α]
    (A : FastResetArray α) (pos : Nat) (v : α) : FastResetArray α :=
  if A.data pos = default then
    { A with data := Function.update A.data pos v,
             usedEntries := A.usedEntries ++ [pos] }
  else
    { A with data := Function.update A.data pos v }

/-- `clear()`: reset each used entry to `Value()`, then drop the list. -/
def clear {α : Type} [Inhabited α] (A : FastResetArray α) :
    FastResetArray α :=
  { A with
    data := A.usedEntries.foldl
      (fun d pos => Function.update d pos default) A.data,
    usedEntries := [] }

end FastResetArray

/-- An operation on a `FastResetArray`. -/
inductive FraOp (α : Type) where
  | set (pos : Nat) (v : α)
  | clear
deriving Repr

/-- Apply one operation to the array. -/
def fraApplyOp {α : Type} [Inhabited α] [DecidableEq α]
    (A : FastResetArray α) : FraOp α → FastResetArray α
  | FraOp.set pos v => A.set pos v
  | FraOp.clear => A.clear

/-- Apply a sequence of operations to the array. -/
def fraApplyOps {α : Type} [Inhabited α] [DecidableEq α]
    (A : FastResetArray α) (ops : List (FraOp α)) : FastResetArray α :=
  ops.foldl fraApplyOp A

/-- Reference semantics of the operations on a plain map: `set` updates one
position, `clear` resets everything to the default value. -/
def fraRefOp {α : Type} [Inhabited α] (f : Nat → α) : FraOp α → Nat → α
  | FraOp.set pos v => Function.update f pos v
  | FraOp.clear => fun _ => default

/-- Reference semantics of a sequence of operations. -/
def fraRefOps {α : Type} [Inhabited α] (f : Nat → α)
    (ops : List (FraOp α)) : Nat → α :=
  ops.foldl fraRefOp f

/-- The coupling invariant: the array's data agrees with the reference map,
and every entry holding a non-default value is recorded as used. -/
def FraInv {α : Type} [Inhabited α] (A : FastResetArray α)
    (f : Nat → α) : Prop :=
  (∀ pos, A.data pos = f pos) ∧
  ∀ pos, A.data pos ≠ default → pos ∈ A.usedEntries

/-! ## ConcurrentCircularVector (concurrent_circular_vector.h)

`Value` is an unsigned machine integer of `w` bits, modelled as `Nat` with
explicit `% 2 ^ w`.  The constructor builds `_buffer(size + 1)`
(value-initialized to 0) and fills all but the last entry with the sentinel
`kLock = numeric_limits<Value>::max() = 2 ^ w - 1`. -/

/-- The sentinel `kLock`: the maximum representable `w`-bit value. -/
def kLock (w : Nat) : Nat := 2 ^ w - 1

structure CircVec where
  w : Nat
  buffer : List Nat
deriving Repr

/-- The constructor `ConcurrentCircularVector(size)`. -/
def cvInit (w size : Nat) : CircVec :=
  { w := w, buffer := List.replicate size (kLock w) ++ [0] }

/-- The local `prev_pos` of `fetch_and_update`:
`pos == 0 ? buffer.size() - 1 : pos - 1` for `pos = entry % buffer.size()`. -/
def cvPrev (B entry : Nat) : Nat :=
  if entry % B = 0 then B - 1 else entry % B - 1

/-- `fetch_and_update(entry, delta)`: read the previous slot (the source
spin-waits while it holds `kLock`; in this sequential model a blocked call
returns `none`), write `kLock` to the previous slot, write `value + delta`
(wrapping at `2 ^ w`; the source asserts `value + delta != kLock`) to the
entry's slot, and return the previous value. -/
def fetchAndUpdate (V : CircVec) (entry delta : Nat) :
    Option (Nat × CircVec) :=
  if V.buffer.getD (cvPrev V.buffer.length entry) 0 = kLock V.w then none
  else some (V.buffer.getD (cvPrev V.buffer.length entry) 0,
    { V with buffer :=
        ((V.buffer.set (cvPrev V.buffer.length entry) (kLock V.w)).set
          (entry % V.buffer.length)
          ((V.buffer.getD (cvPrev V.buffer.length entry) 0 + delta)
            % 2 ^ V.w)) })

/-- Process tickets in order starting at ticket `t`, one `fetch_and_update`
per delta; returns the list of fetched values and the final state. -/
def runTickets : CircVec → Nat → List Nat → Option (List Nat × CircVec)
  | V, _, [] => some ([], V)
  | V, t, d :: ds =>
      match fetchAndUpdate V t d with
      | none => none
      | some (v, V') =>
          match runTickets V' (t + 1) ds with
          | none => none
          | some (vs, V'') => some (v :: vs, V'')

/-- The values returned by the in-order calls. -/
def runReturns (V : CircVec) (t : Nat) (ds : List Nat) :
    Option (List Nat) :=
  (runTickets V t ds).map Prod.fst

/-- The state after the in-order calls. -/
def runState (V : CircVec) (t : Nat) (ds : List Nat) : Option CircVec :=
  (runTickets V t ds).map Prod.snd

/-- The list of partial sums `S, S + d₀, S + d₀ + d₁, …` (one per delta). -/
def accList (S : Nat) : List Nat → List Nat
  | [] => []
  | d :: ds => S :: accList (S + d) ds

/-! ## CompressedGraph isolated-node removal (compressed_graph.cc)

`remove_isolated_nodes(k)` / `integrate_isolated_nodes()` restrict and
unrestrict the logical node count without copying.  The `restrict` /
`unrestrict` operations of `CompactStaticArray` / `StaticArray` are
modelled from the spec ("restrict/unrestrict the logical n without
copying"), since their headers are not part of the source fragments: an
array keeps its full storage plus a view size; `restrict` shrinks the view,
`unrestrict` restores the full size. -/

/-- Modelled from the spec: an array with full storage and a restrictable
view size (`CompactStaticArray::restrict/unrestrict` and
`StaticArray::restrict/unrestrict` are declared in headers outside the
source fragments). -/
structure RestrictableArray (α : Type) where
  full : List α
  size : Nat
deriving Repr

namespace RestrictableArray

/-- The visible elements of the array. -/
def view {α : Type} (A : RestrictableArray α) : List α :=
  A.full.take A.size

/-- Modelled from the spec: `restrict(n)` limits the view to `n` elements. -/
def restrict {α : Type} (A : RestrictableArray α) (n : Nat) :
    RestrictableArray α :=
  { A with size := n }

/-- Modelled from the spec: `unrestrict()` restores the full view. -/
def unrestrict {α : Type} (A : RestrictableArray α) : RestrictableArray α :=
  { A with size := A.full.length }

end RestrictableArray

/-- `parallel::accumulate` over the visible node weights. -/
def sumIntList (l : List Int) : Int := l.sum

/-- `parallel::max_element` over the visible node weights (node weights are
nonnegative, so folding `max` from 0 yields the maximum element). -/
def maxIntList (l : List Int) : Int := l.foldl max 0

/-- The fields of `CompressedGraph` that `remove_isolated_nodes` and
`integrate_isolated_nodes` read or write: the `_nodes` offset array
(`n() = _nodes.size() - 1`), the optional `_node_weights` array,
`_total_node_weight`, `_max_node_weight`, the degree-bucket prefix sums
`_buckets`, `_number_of_buckets`, and the `_sorted` flag. -/
structure CompressedGraph where
  nodes : RestrictableArray Nat
  nodeWeights : RestrictableArray Int
  totalNodeWeight : Int
  maxNodeWeight : Int
  buckets : List Nat
  numberOfBuckets : Nat
  sorted : Bool
deriving Repr

/-- `n()`: the logical node count, `_nodes.size() - 1`. -/
def cgN (g : CompressedGraph) : Nat := g.nodes.size - 1

/-- `update_total_node_weight()`: recompute `_total_node_weight` and
`_max_node_weight` from the (restricted) `_node_weights`, treating an empty
weight array as unit weights. -/
def updateTotalNodeWeight (g : CompressedGraph) : CompressedGraph :=
  if g.nodeWeights.size = 0 then
    { g with totalNodeWeight := (cgN g : Int), maxNodeWeight := 1 }
  else
    { g with totalNodeWeight := sumIntList g.nodeWeights.view,
             maxNodeWeight := maxIntList g.nodeWeights.view }

/-- The bucket loop `for i in [0, _buckets.size() - 1): _buckets[1+i] op δ`:
apply `f` to every entry at index ≥ 1 (`i` is the index of the head of the
remaining list).  `NodeID` arithmetic is unsigned; under the claim's
hypothesis the subtractions never underflow, so plain `Nat` arithmetic
agrees with the machine arithmetic. -/
def bucketsAdjust : List Nat → (Nat → Nat) → Nat → List Nat
  | [], _, _ => []
  | b :: bs, f, i => (if 1 ≤ i then f b else b) :: bucketsAdjust bs f (i + 1)

/-- The trailing `if (_number_of_buckets == 1) _number_of_buckets = 0;` of
`remove_isolated_nodes`. -/
def fixBucketsRemove (g : CompressedGraph) : CompressedGraph :=
  if g.numberOfBuckets = 1 then { g with numberOfBuckets := 0 } else g

/-- The trailing `if (_number_of_buckets == 0) _number_of_buckets = 1;` of
`integrate_isolated_nodes`. -/
def fixBucketsIntegrate (g : CompressedGraph) : CompressedGraph :=
  if g.numberOfBuckets = 0 then { g with numberOfBuckets := 1 } else g

/-- Replace the two array fields (the `restrict`/`unrestrict` statements of
the source act on these members in place). -/
def cgSetArrays (g : CompressedGraph) (ns : RestrictableArray Nat)
    (ws : RestrictableArray Int) : CompressedGraph :=
  { g with nodes := ns, nodeWeights := ws }

/-- Replace the bucket prefix sums (the bucket loop writes them in place). -/
def cgSetBuckets (g : CompressedGraph) (bs : List Nat) : CompressedGraph :=
  { g with buckets := bs }

/-- `remove_isolated_nodes(isolated_nodes)`: early-out on 0; restrict
`_nodes` to `new_n + 1` and (when present) `_node_weights` to `new_n`;
recompute the total node weight; subtract `isolated_nodes` from every
bucket prefix sum at index ≥ 1; fix `_number_of_buckets`. -/
def removeIsolatedNodes (g : CompressedGraph) (isolated : Nat) :
    CompressedGraph :=
  if isolated = 0 then g
  else
    fixBucketsRemove
      (cgSetBuckets
        (updateTotalNodeWeight
          (cgSetArrays g (g.nodes.restrict (cgN g - isolated + 1))
            (if g.nodeWeights.size = 0 then g.nodeWeights
             else g.nodeWeights.restrict (cgN g - isolated))))
        (bucketsAdjust g.buckets (fun x => x - isolated) 0))

/-- `integrate_isolated_nodes()`: unrestrict both arrays; the number of
isolated nodes is the new `n()` minus the old one; recompute the total node
weight; add that count to every bucket prefix sum at index ≥ 1; fix
`_number_of_buckets`. -/
def integrateIsolatedNodes (g : CompressedGraph) : CompressedGraph :=
  fixBucketsIntegrate
    (cgSetBuckets
      (updateTotalNodeWeight
        (cgSetArrays g g.nodes.unrestrict g.nodeWeights.unrestrict))
      (bucketsAdjust g.buckets
        (fun x => x + (g.nodes.full.length - 1 - cgN g)) 0))

/-- A concrete sorted compressed graph with 3 nodes (weights 5, 7, 2), the
last of which is isolated: offsets `[0, 4, 9, 9]`, bucket prefix sums
`[0, 1, 3, 3]`. -/
def cgWitnessGraph : CompressedGraph :=
  { nodes := { full := [0, 4, 9, 9], size := 4 },
    nodeWeights := { full := [5, 7, 2], size := 3 },
    totalNodeWeight := 14,
    maxNodeWeight := 7,
    buckets := [0, 1, 3, 3],
    numberOfBuckets := 2,
    sorted := true }

/-! ## Move-set builder (`MoveSetBuilder`, move_sets.cc)

Single-process model: every node is owned (`is_owned_node` is true), so the
ownership test in `add_to_move_set` reduces to the move-set membership test.
`kInvalidNodeID` / `kInvalidBlockID` sentinels are modelled as `none`.  The
two binary max-heaps are modelled by their observable behavior: the frontier
as a list of `(node, key)` entries popped at a maximal key (ties resolved to
the earliest entry; the source's tie order among equal keys is
implementation-defined), and `_cur_conns` as a key map over the blocks. -/

structure BalancerCtx where
  G : Graph
  p : Partition
  nodeWeight : Nat → Int
  blockWeight : Nat → Int
  maxBlockWeight : Nat → Int
  k : Nat

structure MoveSetBuilderState where
  nodeToMoveSet : Nat → Option Nat
  moveSets : Nat → Nat
  moveSetIndices : Nat → Nat
  frontier : List (Nat × Int)
  curPos : Nat
  curMoveSet : Nat
  curBlockConn : Int
  curConns : Nat → Int
  curBlock : Option Nat
  curWeight : Int
  bestPrefixPos : Nat
  bestPrefixBlock : Option Nat
  bestPrefixConn : Int

/-- `BinaryMaxHeap::peek_id/peek_key`: an entry with maximal key. -/
def heapPeek : List (Nat × Int) → Nat × Int
  | [] => (0, 0)
  | [x] => x
  | x :: y :: xs =>
      let m := heapPeek (y :: xs)
      if m.2 ≤ x.2 then x else m

/-- `BinaryMaxHeap::pop` of a given node: drop its entry. -/
def heapErase : List (Nat × Int) → Nat → List (Nat × Int)
  | [], _ => []
  | x :: xs, v => if x.1 = v then xs else x :: heapErase xs v

/-- `BinaryMaxHeap::contains`. -/
def heapContains (l : List (Nat × Int)) (v : Nat) : Bool :=
  l.any (fun e => e.1 = v)

/-- `BinaryMaxHeap::key`. -/
def heapKey (l : List (Nat × Int)) (v : Nat) : Int :=
  ((l.find? (fun e => e.1 = v)).getD (0, 0)).2

/-- `BinaryMaxHeap::decrease_priority(v, k)`: replace the key of `v`. -/
def heapSetKey (l : List (Nat × Int)) (v : Nat) (knew : Int) :
    List (Nat × Int) :=
  l.map (fun e => if e.1 = v then (v, knew) else e)

/-- `_cur_conns.peek_key()`: the maximal key over all blocks. -/
def connsPeekKey (k : Nat) (f : Nat → Int) : Int :=
  (List.range k).foldl (fun m b => max m (f b)) (if k = 0 then 0 else f 0)

/-- `_cur_conns.peek_id()`: a block attaining the maximal key. -/
def connsPeekId (k : Nat) (f : Nat → Int) : Nat :=
  ((List.range k).find? (fun b => f b = connsPeekKey k f)).getD 0

/-- The body of `add_to_move_set`'s neighbor loop for one half-edge: nodes
already in the current move set reduce `_cur_block_conn`; other neighbors in
the current block increase it; neighbors in other blocks decrease that
block's `_cur_conns` key. -/
def addConnStep (ctx : BalancerCtx) (s : MoveSetBuilderState)
    (q : Nat × Int) : MoveSetBuilderState :=
  if s.nodeToMoveSet q.1 = some s.curMoveSet then
    { s with curBlockConn := s.curBlockConn - q.2 }
  else if s.curBlock = some (ctx.p q.1) then
    { s with curBlockConn := s.curBlockConn + q.2 }
  else
    { s with curConns :=
        (Function.update s.curConns (ctx.p q.1)
          (s.curConns (ctx.p q.1) - q.2)) }

/-- `add_to_move_set(u)`: set `_cur_block` on first use, account `u`'s
weight, record `u` in the current move set and position, run the neighbor
loop, and update the best-prefix tracking when the top `_cur_conns` key
reaches `_best_prefix_conn`. -/
def addToMoveSet (ctx : BalancerCtx) (st : MoveSetBuilderState) (u : Nat) :
    MoveSetBuilderState :=
  let st0 := if st.curBlock = none
    then { st with curBlock := some (ctx.p u) } else st
  let st1 := { st0 with
    curWeight := st0.curWeight + ctx.nodeWeight u,
    nodeToMoveSet :=
      Function.update st0.nodeToMoveSet u (some st0.curMoveSet),
    moveSets := Function.update st0.moveSets st0.curPos u,
    curPos := st0.curPos + 1 }
  let st2 := (ctx.G.nbrs u).foldl (addConnStep ctx) st1
  if st2.bestPrefixConn ≤ connsPeekKey ctx.k st2.curConns then
    { st2 with
      bestPrefixBlock := some (connsPeekId ctx.k st2.curConns),
      bestPrefixConn := connsPeekKey ctx.k st2.curConns,
      bestPrefixPos := st2.curPos }
  else st2

/-- The body of `grow_move_set`'s neighbor loop for one half-edge of the
popped node `u` with block `bu`: same-block neighbors are pushed onto the
frontier, or have their priority raised by the edge weight when already
present. -/
def growPushStep (ctx : BalancerCtx) (bu : Nat) (s : MoveSetBuilderState)
    (q : Nat × Int) : MoveSetBuilderState :=
  if ctx.p q.1 = bu then
    (if heapContains s.frontier q.1 then
      { s with frontier :=
          heapSetKey s.frontier q.1 (heapKey s.frontier q.1 + q.2) }
    else
      { s with frontier := s.frontier ++ [(q.1, q.2)] })
  else s

/-- The while loop of `grow_move_set`, with an explicit unrolling bound
(the source loop terminates because every popped node adds its positive
weight toward `max_weight`; the bound is discharged in the theorems). -/
def growLoop (ctx : BalancerCtx) (maxW : Int) :
    Nat → MoveSetBuilderState → MoveSetBuilderState
  | 0, st => st
  | fuel + 1, st =>
      if st.frontier ≠ [] ∧ st.curWeight < maxW then
        let u := (heapPeek st.frontier).1
        let st1 := { st with frontier := heapErase st.frontier u }
        let st2 := addToMoveSet ctx st1 u
        let st3 := (ctx.G.nbrs u).foldl (growPushStep ctx (ctx.p u)) st2
        growLoop ctx maxW fuel st3
      else st

/-- The truncation loop of `finish_move_set`: for `pos` in
`[best_prefix_pos, cur_pos)`, clear `_node_to_move_set[_move_sets[pos]]`. -/
def truncLoop (arr : Nat → Nat) :
    (Nat → Option Nat) → Nat → Nat → (Nat → Option Nat)
  | m, _, 0 => m
  | m, pos, cnt + 1 => truncLoop arr (Function.update m (arr pos) none)
      (pos + 1) cnt

/-- `finish_move_set()`: truncate to the best prefix, record the set end
index, advance the set counter, and reset the per-set accumulators
(`reset_cur_conns` re-pushes every block with key 0). -/
def finishMoveSet (st : MoveSetBuilderState) : MoveSetBuilderState :=
  { st with
    nodeToMoveSet := truncLoop st.moveSets st.nodeToMoveSet
      st.bestPrefixPos (st.curPos - st.bestPrefixPos),
    moveSetIndices := Function.update st.moveSetIndices (st.curMoveSet + 1)
      (st.moveSetIndices st.curMoveSet + st.bestPrefixPos),
    curMoveSet := st.curMoveSet + 1,
    curConns := fun _ => 0,
    curBlock := none,
    curBlockConn := 0,
    curPos := st.bestPrefixPos }

/-- `grow_move_set(seed, max_weight)`: push the seed, run the loop, finish
the set. -/
def growMoveSet (ctx : BalancerCtx) (fuel : Nat) (seed : Nat) (maxW : Int)
    (st : MoveSetBuilderState) : MoveSetBuilderState :=
  finishMoveSet (growLoop ctx maxW fuel
    { st with frontier := st.frontier ++ [(seed, 0)] })

/-- The builder state after the constructor: every node unassigned, empty
frontier, all counters zero. -/
def msInitState : MoveSetBuilderState :=
  { nodeToMoveSet := fun _ => none,
    moveSets := fun _ => 0,
    moveSetIndices := fun _ => 0,
    frontier := [],
    curPos := 0,
    curMoveSet := 0,
    curBlockConn := 0,
    curConns := fun _ => 0,
    curBlock := none,
    curWeight := 0,
    bestPrefixPos := 0,
    bestPrefixBlock := none,
    bestPrefixConn := 0 }

/-- `build(max_move_set_weight)` (the loop of `build_greedy_move_sets`):
for every node of an overloaded block not yet assigned to a move set, grow
a move set from it.  Besides the final state, the list of `(set index,
seed)` pairs of the grow calls is returned as a specification log; the
state component is not affected by it. -/
def msBuild (ctx : BalancerCtx) (fuel : Nat) (maxW : Int) :
    MoveSetBuilderState × List (Nat × Nat) :=
  (List.range ctx.G.numNodes).foldl
    (fun s u =>
      if ctx.maxBlockWeight (ctx.p u) < ctx.blockWeight (ctx.p u) ∧
          s.1.nodeToMoveSet u = none then
        (growMoveSet ctx fuel u maxW s.1, s.2 ++ [(s.1.curMoveSet, u)])
      else s)
    (msInitState, [])

/-- A tiny overloaded instance for the C10 witness: two nodes joined by an
edge, both in block 0, which holds weight 2 against a cap of 1. -/
def msWitnessCtx : BalancerCtx :=
  { G := { numNodes := 2, adj := [[(1, 1)], [(0, 1)]] },
    p := fun _ => 0,
    nodeWeight := fun _ => 1,
    blockWeight := fun _ => 2,
    maxBlockWeight := fun _ => 1,
    k := 2 }

/-! ## JET refiner (jet_refiner.cc), single-process model

With one process there are no ghost nodes: `synchronize_ghost_node_move_candidates`
and `synchronize_ghost_node_labels` exchange nothing, and the Allreduce of
`apply_block_weight_deltas` is the identity, so block weights stay derivable
from the block array and are not tracked separately.  The balancer invoked
between phases is a separately configured refiner and is therefore a
function parameter; per spec §4.9 it only acts when a block exceeds its
capacity, so the concrete instances below (which never overload any block)
instantiate it with the identity.  The gain calculator and the snapshooter
are modelled from the spec (their sources are not among the fragments). -/

/-- `metrics::edge_cut`: total weight of edges with endpoints in different
blocks, each undirected edge counted once (via `u < v`). -/
def edgeCut (G : Graph) (p : Partition) : Int :=
  (List.range G.numNodes).foldl
    (fun acc u =>
      acc + sumW ((G.nbrs u).filter (fun q => u < q.1 ∧ ¬p u = p q.1)))
    0

/-- Modelled from the spec: `GainCalculator::compute_max_gainer(u)` (the
distributed gain calculator's source is not among the fragments).  Per spec
§4.8 it yields the target block `b* ≠ block(u)` maximizing the connectivity
`wdeg[u, b]`; the first maximizer in block order is chosen. -/
def bestTarget (G : Graph) (p : Partition) (k : Nat) (u : Nat) : Nat :=
  (List.range k).foldl
    (fun best b =>
      if b ≠ p u ∧ (best = p u ∨ conn G p u best < conn G p u b) then b
      else best)
    (p u)

/-- The JET configuration.  The two floating-point factors
`fruitless_threshold` and `_penalty_factor` are carried as exact fractions
`num/den` with positive denominator, so the double comparisons of the
source are expressed exactly by cross-multiplication below. -/
structure JetConfig where
  numIterations : Nat
  numFruitlessIterations : Nat
  fruitlessThresholdNum : Int
  fruitlessThresholdDen : Int
  penaltyNum : Int
  penaltyDen : Int
  k : Nat

structure JetState where
  block : Partition
  locked : Nat → Bool
  gainsTargets : Nat → Int × Nat

/-- `find_moves()`: for each node, a locked node proposes nothing; otherwise
with `max_gainer = (b*, int_degree, ext_degree)` the node proposes
`(absolute_gain, b*)` iff `b* ≠ block(u)` and `ext_degree > int_degree` or
`absolute_gain ≥ -floor(penalty_factor · int_degree)`; else `(0, block(u))`.
With `penalty_factor = penaltyNum/penaltyDen` and a positive denominator,
`std::floor(penalty_factor * int_degree)` is the floor division
`fdiv (penaltyNum * int_degree) penaltyDen`. -/
def findMoves (G : Graph) (cfg : JetConfig) (st : JetState) : JetState :=
  { st with gainsTargets := fun u =>
      if u < G.numNodes then
        (if st.locked u then (0, st.block u)
         else
           (let a := st.block u
            let b := bestTarget G st.block cfg.k u
            let intd := conn G st.block u a
            let extd := conn G st.block u b
            if b ≠ a ∧ (intd < extd ∨
                -(Int.fdiv (cfg.penaltyNum * intd) cfg.penaltyDen)
                  ≤ extd - intd) then
              (extd - intd, b)
            else (0, a)))
      else st.gainsTargets u }

/-- The projected-gain accumulation of `filter_bad_moves` for node `u`:
each neighbor's projected block is its target when `jetTreatsAsMoved`
applies, else its current block; edges into `u`'s target add their weight
and edges into `u`'s current block subtract it. -/
def jetProjectedGain (G : Graph) (st : JetState) (u : Nat) : Int :=
  (G.nbrs u).foldl
    (fun acc q =>
      (let pb := if jetTreatsAsMoved st.gainsTargets q.1 u
        then (st.gainsTargets q.1).2 else st.block q.1
       if pb = (st.gainsTargets u).2 then acc + q.2
       else if pb = st.block u then acc - q.2
       else acc))
    0

/-- `filter_bad_moves()`: reset each lock, skip nodes without a proposal,
and lock a proposing node iff its projected gain is nonnegative. -/
def filterMoves (G : Graph) (st : JetState) : JetState :=
  { st with locked := fun u =>
      if u < G.numNodes then
        (if st.block u = (st.gainsTargets u).2 then false
         else decide (0 ≤ jetProjectedGain G st u))
      else st.locked u }

/-- `move_locked_nodes()`: apply the proposed target of every locked node. -/
def moveLockedNodes (G : Graph) (st : JetState) : JetState :=
  { st with block := fun u =>
      if u < G.numNodes ∧ st.locked u = true then (st.gainsTargets u).2
      else st.block u }

/-- One JET pass: find, filter, move (the ghost-synchronization phases are
no-ops with a single process). -/
def jetPass (G : Graph) (cfg : JetConfig) (st : JetState) : JetState :=
  moveLockedNodes G (filterMoves G (findMoves G cfg st))

/-- Modelled from the spec: the snapshooter keeps the best partition seen —
`update` snapshots the partition if its cut improved, `rollback` restores
the best snapshot (snapshooter.h is not among the fragments). -/
structure Snapshot where
  blocks : Partition
  cut : Int

/-- Modelled from the spec: the initial snapshot taken by `initialize()`. -/
def snapInit (G : Graph) (p : Partition) : Snapshot :=
  { blocks := p, cut := edgeCut G p }

/-- Modelled from the spec: `update` snapshots the partition when its cut
improved. -/
def snapUpdate (G : Graph) (s : Snapshot) (p : Partition) : Snapshot :=
  if edgeCut G p < s.cut then { blocks := p, cut := edgeCut G p } else s

/-- `max_num_iterations` / `max_num_fruitless_iterations`: a configured
value of 0 becomes `std::numeric_limits<int>::max()`. -/
def effLimit (x : Nat) : Nat :=
  if x = 0 then 2147483647 else x

/-- The loop state of `refine()`: partition state, best snapshot, the
tracked `best_cut`, the two counters, and (as a specification log that no
computation reads) one `(final_cut, fruitless_counter)` record per pass. -/
structure JetLoopState where
  st : JetState
  snap : Snapshot
  bestCut : Int
  fruitless : Nat
  iter : Nat
  records : List (Int × Nat)

/-- The partition after the pass body and the balancer. -/
def jetStepBlock (G : Graph) (cfg : JetConfig) (bal : Partition → Partition)
    (ls : JetLoopState) : Partition :=
  bal ((jetPass G cfg ls.st).block)

/-- `final_cut` of the pass. -/
def jetStepCut (G : Graph) (cfg : JetConfig) (bal : Partition → Partition)
    (ls : JetLoopState) : Int :=
  edgeCut G (jetStepBlock G cfg bal ls)

/-- The reset test `best_cut - final_cut > (1.0 - fruitless_threshold) *
best_cut`, cross-multiplied by the (positive) threshold denominator:
with `fruitless_threshold = tn/td` it reads
`(best_cut - final_cut) * td > (td - tn) * best_cut`. -/
def jetStepImproved (G : Graph) (cfg : JetConfig)
    (bal : Partition → Partition) (ls : JetLoopState) : Bool :=
  (cfg.fruitlessThresholdDen - cfg.fruitlessThresholdNum) * ls.bestCut
    < (ls.bestCut - jetStepCut G cfg bal ls) * cfg.fruitlessThresholdDen

/-- One iteration of the do-while loop of `refine()`: run the pass phases,
run the balancer, update the snapshooter, bump the counters, and reset
`best_cut`/`cur_fruitless_iteration` on an above-threshold improvement. -/
def jetPassStep (G : Graph) (cfg : JetConfig) (bal : Partition → Partition)
    (ls : JetLoopState) : JetLoopState :=
  { st := { jetPass G cfg ls.st with block := jetStepBlock G cfg bal ls },
    snap := snapUpdate G ls.snap (jetStepBlock G cfg bal ls),
    bestCut := if jetStepImproved G cfg bal ls
      then jetStepCut G cfg bal ls else ls.bestCut,
    fruitless := if jetStepImproved G cfg bal ls then 0
      else ls.fruitless + 1,
    iter := ls.iter + 1,
    records := ls.records ++ [(jetStepCut G cfg bal ls,
      if jetStepImproved G cfg bal ls then 0 else ls.fruitless + 1)] }

/-- The do-while loop: run a pass, continue while
`cur_iteration < max_num_iterations && cur_fruitless_iteration <
max_num_fruitless_iterations`.  The unrolling bound `fuel` is instantiated
with `max_num_iterations`, which the iteration counter can never exceed. -/
def jetLoop (G : Graph) (cfg : JetConfig) (bal : Partition → Partition) :
    Nat → JetLoopState → JetLoopState
  | 0, ls => ls
  | fuel + 1, ls =>
      (let nxt := jetPassStep G cfg bal ls
       if nxt.iter < effLimit cfg.numIterations ∧
           nxt.fruitless < effLimit cfg.numFruitlessIterations then
         jetLoop G cfg bal fuel nxt
       else nxt)

/-- The loop state right after `initialize()` and the preamble of
`refine()`: all locks cleared, empty proposals, the initial snapshot, and
`best_cut = initial_cut`. -/
def jetInitLoopState (G : Graph) (p0 : Partition) : JetLoopState :=
  { st := { block := p0, locked := fun _ => false,
            gainsTargets := fun u => (0, p0 u) },
    snap := snapInit G p0,
    bestCut := edgeCut G p0,
    fruitless := 0,
    iter := 0,
    records := [] }

/-- The loop state when the do-while loop of `refine()` exits. -/
def jetFinalState (G : Graph) (cfg : JetConfig)
    (bal : Partition → Partition) (p0 : Partition) : JetLoopState :=
  jetLoop G cfg bal (effLimit cfg.numIterations) (jetInitLoopState G p0)

structure JetResult where
  partition : Partition
  returnValue : Bool
  numPasses : Nat
  records : List (Int × Nat)
  initialCut : Int
  trackedBestCut : Int

/-- `refine()`: run the loop, roll back to the best snapshot, and return
`initial_cut > best_cut` (for the tracked `best_cut` variable). -/
def jetRefine (G : Graph) (cfg : JetConfig) (bal : Partition → Partition)
    (p0 : Partition) : JetResult :=
  { partition := (jetFinalState G cfg bal p0).snap.blocks,
    returnValue := (jetFinalState G cfg bal p0).bestCut < edgeCut G p0,
    numPasses := (jetFinalState G cfg bal p0).iter,
    records := (jetFinalState G cfg bal p0).records,
    initialCut := edgeCut G p0,
    trackedBestCut := (jetFinalState G cfg bal p0).bestCut }

/-- The partition `[0, 1, 1, 1]` on the 4-path, used by the JET scenarios. -/
def jetPartA : Partition := fun u => if u = 0 then 0 else 1

/-- Configuration for the C1 counterexample: one iteration, fruitless
threshold 3/4, penalty factor 0. -/
def cfgC1x : JetConfig :=
  { numIterations := 1, numFruitlessIterations := 5,
    fruitlessThresholdNum := 3, fruitlessThresholdDen := 4,
    penaltyNum := 0, penaltyDen := 1, k := 2 }

/-- Configuration for the C1 witness: one iteration, fruitless threshold
1/2, penalty factor 0. -/
def cfgC1w : JetConfig :=
  { numIterations := 1, numFruitlessIterations := 5,
    fruitlessThresholdNum := 1, fruitlessThresholdDen := 2,
    penaltyNum := 0, penaltyDen := 1, k := 2 }

/-- Configuration for the C6 counterexample: `num_iterations = 0`
(mapped by the code to `INT_MAX`), one fruitless iteration allowed. -/
def cfgC6x : JetConfig :=
  { numIterations := 0, numFruitlessIterations := 1,
    fruitlessThresholdNum := 1, fruitlessThresholdDen := 2,
    penaltyNum := 0, penaltyDen := 1, k := 2 }

/-- The 8-node graph of the C1 counterexample: the 4-path `0-1-2-3` (unit
weights) plus an edge `4-5` of weight 3 whose endpoints are pinned to their
blocks by weight-10 edges to nodes 6 and 7. -/
def jetGraphB : Graph :=
  { numNodes := 8,
    adj := [[(1, 1)], [(0, 1), (2, 1)], [(1, 1), (3, 1)], [(2, 1)],
            [(5, 3), (6, 10)], [(4, 3), (7, 10)], [(4, 10)], [(5, 10)]] }

/-- The starting partition `[0, 1, 1, 1, 0, 1, 0, 1]` for `jetGraphB`. -/
def jetPartB : Partition := fun u =>
  match u with
  | 0 => 0
  | 1 => 1
  | 2 => 1
  | 3 => 1
  | 4 => 0
  | 5 => 1
  | 6 => 0
  | 7 => 1
  | _ => 0

/-- Claim C2 (counterexample): on the path scenario the spec asserts
`wdeg[2,0] = 1` and `gain(2, 1, 0) = 1` after `move(1, 1→0)`, but the code
yields `wdeg[2,0] = 2` (node 2's neighbor 3 was already in block 0 and the
move adds the edge to node 1) and hence `gain(2, 1, 0) = 2`. -/
theorem C2_counterexample :
    pathCacheMoved.weightedDegreeTo 2 0 = 2 ∧
    ¬ pathCacheMoved.weightedDegreeTo 2 0 = 1 ∧
    pathCacheMoved.gain 2 1 0 = 2 ∧
    ¬ pathCacheMoved.gain 2 1 0 = 1 := by
  refine ⟨by decide, by decide, by decide, by decide⟩

/-- Claim C2 (amended): after `initialize` the dense gain cache on the path
0-1-2-3 with partition `[0,1,1,0]` holds `wdeg[0,0]=0, wdeg[0,1]=1,
wdeg[1,0]=1, wdeg[1,1]=1`; after `move(1, 1→0)` it holds `wdeg[0,1]=0,
wdeg[0,0]=1, wdeg[2,1]=0, wdeg[2,0]=2` (not 1), and `gain(2,1,0) = 2`
(not 1). -/
theorem C2_amended :
    pathCacheInit.weightedDegreeTo 0 0 = 0 ∧
    pathCacheInit.weightedDegreeTo 0 1 = 1 ∧
    pathCacheInit.weightedDegreeTo 1 0 = 1 ∧
    pathCacheInit.weightedDegreeTo 1 1 = 1 ∧
    pathCacheMoved.weightedDegreeTo 0 1 = 0 ∧
    pathCacheMoved.weightedDegreeTo 0 0 = 1 ∧
    pathCacheMoved.weightedDegreeTo 2 1 = 0 ∧
    pathCacheMoved.weightedDegreeTo 2 0 = 2 ∧
    pathCacheMoved.gain 2 1 0 = 2 := by
  refine ⟨by decide, by decide, by decide, by decide, by decide,
    by decide, by decide, by decide, by decide⟩

/-! ## Gain-cache consistency (claim C4) -/

theorem sumW_nil : sumW [] = 0 := rfl

theorem sumW_cons (a : Nat × Int) (t : List (Nat × Int)) :
    sumW (a :: t) = a.2 + sumW t := by
  simp [sumW]

theorem sumW_filter_cons (pr : Nat × Int → Bool) (a : Nat × Int)
    (t : List (Nat × Int)) :
    sumW ((a :: t).filter pr)
      = (if pr a then a.2 else 0) + sumW (t.filter pr) := by
  cases h : pr a <;> simp [List.filter_cons, h, sumW_cons]

theorem sumW_filter_false {pr : Nat × Int → Bool} {l : List (Nat × Int)}
    (h : ∀ q ∈ l, pr q = false) : sumW (l.filter pr) = 0 := by
  induction l with
  | nil => rfl
  | cons a t ih =>
      rw [sumW_filter_cons, h a (by simp), ih fun q hq => h q (by simp [hq])]
      simp

theorem sumW_filter_congr {pr pr' : Nat × Int → Bool} {l : List (Nat × Int)}
    (h : ∀ q ∈ l, pr q = pr' q) : sumW (l.filter pr) = sumW (l.filter pr') := by
  induction l with
  | nil => rfl
  | cons a t ih =>
      rw [sumW_filter_cons, sumW_filter_cons, h a (by simp),
        ih fun q hq => h q (by simp [hq])]

theorem index_inj {k u u' b b' : Nat} (hb : b < k) (hb' : b' < k) :
    u * k + b = u' * k + b' ↔ u = u' ∧ b = b' := by
  constructor
  · intro h
    have hu : u = u' := by
      by_contra hne
      rcases Nat.lt_or_ge u u' with hlt | hge
      · have h2 : (u + 1) * k ≤ u' * k := Nat.mul_le_mul_right k hlt
        rw [Nat.succ_mul] at h2
        omega
      · have hlt' : u' < u := lt_of_le_of_ne hge (Ne.symm hne)
        have h2 : (u' + 1) * k ≤ u * k := Nat.mul_le_mul_right k hlt'
        rw [Nat.succ_mul] at h2
        omega
    subst hu
    exact ⟨rfl, by omega⟩
  · rintro ⟨rfl, rfl⟩
    rfl

namespace DenseGainCache

@[simp] theorem recomputeStep_k (u : Nat) (p : Partition) (C : DenseGainCache)
    (q : Nat × Int) : (recomputeStep u p C q).k = C.k := rfl

@[simp] theorem moveStep_k (a b : Nat) (C : DenseGainCache) (q : Nat × Int) :
    (moveStep a b C q).k = C.k := rfl

theorem recompute_foldl_k (u : Nat) (p : Partition) :
    ∀ (L : List (Nat × Int)) (C : DenseGainCache),
      (L.foldl (recomputeStep u p) C).k = C.k := by
  intro L
  induction L with
  | nil => intro C; rfl
  | cons a t ih => intro C; rw [List.foldl_cons, ih]; rfl

theorem recomputeNode_k (G : Graph) (p : Partition) (C : DenseGainCache)
    (u : Nat) : (recomputeNode G p C u).k = C.k := by
  unfold recomputeNode
  rw [recompute_foldl_k]

theorem recompute_foldl_gc (u : Nat) (p : Partition) (k : Nat) :
    ∀ (L : List (Nat × Int)) (C : DenseGainCache), C.k = k → ∀ i,
      (L.foldl (recomputeStep u p) C).gainCacheArr i
        = C.gainCacheArr i
          + sumW (L.filter (fun q => u * k + p q.1 = i)) := by
  intro L
  induction L with
  | nil => intro C _ i; simp [sumW]
  | cons a t ih =>
      intro C hk i
      rw [List.foldl_cons, ih (recomputeStep u p C a) (by simp [hk]),
        sumW_filter_cons]
      show (Function.update C.gainCacheArr (C.index u (p a.1))
          (C.gainCacheArr (C.index u (p a.1)) + a.2)) i + _ = _
      rw [Function.update_apply]
      have hidx : C.index u (p a.1) = u * k + p a.1 := by
        simp [DenseGainCache.index, hk]
      rw [hidx]
      by_cases h : i = u * k + p a.1
      · rw [if_pos h, if_pos (by simp [h]), h]
        omega
      · rw [if_neg h, if_neg (by simp; omega)]
        omega

theorem recompute_foldl_wd (u : Nat) (p : Partition) :
    ∀ (L : List (Nat × Int)) (C : DenseGainCache) (x : Nat),
      (L.foldl (recomputeStep u p) C).weightedDegrees x
        = C.weightedDegrees x + (if x = u then sumW L else 0) := by
  intro L
  induction L with
  | nil => intro C x; simp [sumW]
  | cons a t ih =>
      intro C x
      rw [List.foldl_cons, ih, sumW_cons]
      show (Function.update C.weightedDegrees u
          (C.weightedDegrees u + a.2)) x + _ = _
      rw [Function.update_apply]
      by_cases h : x = u <;> simp [h] <;> omega

theorem recomputeNode_gc (G : Graph) (p : Partition) (C : DenseGainCache)
    (u : Nat) (i : Nat) :
    (recomputeNode G p C u).gainCacheArr i
      = C.gainCacheArr i
        + sumW ((G.nbrs u).filter (fun q => u * C.k + p q.1 = i)) := by
  unfold recomputeNode
  exact recompute_foldl_gc u p C.k (G.nbrs u)
    { C with weightedDegrees := Function.update C.weightedDegrees u 0 } rfl i

theorem recomputeNode_wd (G : Graph) (p : Partition) (C : DenseGainCache)
    (u x : Nat) :
    (recomputeNode G p C u).weightedDegrees x
      = if x = u then G.wDeg u else C.weightedDegrees x := by
  unfold recomputeNode
  rw [recompute_foldl_wd]
  show (Function.update C.weightedDegrees u 0) x + _ = _
  rw [Function.update_apply]
  by_cases h : x = u <;> simp [h, Graph.wDeg]

theorem recomputeNode_row_self (G : Graph) (p : Partition)
    (C : DenseGainCache) (u b : Nat) :
    (recomputeNode G p C u).gainCacheArr (u * C.k + b)
      = C.gainCacheArr (u * C.k + b)
        + sumW ((G.nbrs u).filter (fun q => p q.1 = b)) := by
  rw [recomputeNode_gc]
  congr 1
  apply sumW_filter_congr
  intro q _
  simp only [decide_eq_decide]
  omega

theorem recomputeNode_row_other (G : Graph) (p : Partition)
    (C : DenseGainCache) (u x b : Nat) (hb : b < C.k) (hx : x ≠ u)
    (hp : ∀ q ∈ G.nbrs u, p q.1 < C.k) :
    (recomputeNode G p C u).gainCacheArr (x * C.k + b)
      = C.gainCacheArr (x * C.k + b) := by
  rw [recomputeNode_gc]
  have : sumW ((G.nbrs u).filter (fun q => u * C.k + p q.1 = x * C.k + b))
      = 0 := by
    apply sumW_filter_false
    intro q hq
    simp only [decide_eq_false_iff_not]
    intro hcontr
    exact hx (((index_inj (hp q hq) hb).mp hcontr).1.symm)
  rw [this]
  omega

theorem recomputeAll_foldl_k (G : Graph) (p : Partition) :
    ∀ (ns : List Nat) (C : DenseGainCache),
      (ns.foldl (recomputeNode G p) C).k = C.k := by
  intro ns
  induction ns with
  | nil => intro C; rfl
  | cons a t ih => intro C; rw [List.foldl_cons, ih, recomputeNode_k]

theorem recomputeAll_foldl_gc (G : Graph) (p : Partition) (k u b : Nat)
    (hb : b < k) :
    ∀ (ns : List Nat) (C : DenseGainCache), C.k = k → ns.Nodup →
      (∀ a ∈ ns, ∀ q ∈ G.nbrs a, p q.1 < k) →
      (ns.foldl (recomputeNode G p) C).gainCacheArr (u * k + b)
        = C.gainCacheArr (u * k + b)
          + (if u ∈ ns then conn G p u b else 0) := by
  intro ns
  induction ns with
  | nil => intro C _ _ _; simp
  | cons a t ih =>
      intro C hk hnd hp
      rw [List.foldl_cons,
        ih (recomputeNode G p C a) (by rw [recomputeNode_k, hk])
          (List.nodup_cons.mp hnd).2 (fun x hx => hp x (by simp [hx]))]
      by_cases hau : u = a
      · subst hau
        have hut : u ∉ t := (List.nodup_cons.mp hnd).1
        rw [if_neg hut, if_pos (by simp)]
        have := recomputeNode_row_self G p C u b
        rw [hk] at this
        rw [this]
        simp [conn]
      · have hmem : (if u ∈ a :: t then conn G p u b else 0)
            = if u ∈ t then conn G p u b else 0 := by
          refine if_congr ?_ rfl rfl
          simp [List.mem_cons, hau]
        rw [hmem]
        have := recomputeNode_row_other G p C a u b (by rw [hk]; exact hb)
          hau (fun q hq => by rw [hk]; exact hp a (by simp) q hq)
        rw [hk] at this
        rw [this]

theorem recomputeAll_foldl_wd (G : Graph) (p : Partition) (x : Nat) :
    ∀ (ns : List Nat) (C : DenseGainCache),
      (ns.foldl (recomputeNode G p) C).weightedDegrees x
        = if x ∈ ns then G.wDeg x else C.weightedDegrees x := by
  intro ns
  induction ns with
  | nil => intro C; simp
  | cons a t ih =>
      intro C
      rw [List.foldl_cons, ih]
      rw [recomputeNode_wd]
      by_cases hx : x ∈ t
      · simp [hx]
      · by_cases hxa : x = a
        · subst hxa; simp [hx]
        · simp [hx, hxa]

theorem initCache_gc (G : Graph) (p : Partition) (C : DenseGainCache)
    (u b : Nat) (hu : u < G.numNodes) (hb : b < C.k)
    (hp : ∀ a, a < G.numNodes → ∀ q ∈ G.nbrs a, p q.1 < C.k) :
    (C.initCache G p).weightedDegreeTo u b = conn G p u b := by
  unfold initCache recomputeAll weightedDegreeTo index
  have hkk : (((List.range G.numNodes).foldl (recomputeNode G p)
      C.reset)).k = C.k := by
    rw [recomputeAll_foldl_k]; rfl
  rw [hkk]
  rw [recomputeAll_foldl_gc G p C.k u b hb (List.range G.numNodes) C.reset
    rfl (List.nodup_range _)
    (fun a ha q hq => hp a (List.mem_range.mp ha) q hq)]
  simp [reset, List.mem_range, hu]

theorem initCache_wd (G : Graph) (p : Partition) (C : DenseGainCache)
    (u : Nat) (hu : u < G.numNodes) :
    (C.initCache G p).weightedDegrees u = G.wDeg u := by
  unfold initCache recomputeAll
  rw [recomputeAll_foldl_wd]
  simp [List.mem_range, hu]

theorem initCache_k (G : Graph) (p : Partition) (C : DenseGainCache) :
    (C.initCache G p).k = C.k := by
  unfold initCache recomputeAll
  rw [recomputeAll_foldl_k]; rfl

theorem moveStep_gc (bFrom bTo : Nat) (C : DenseGainCache) (q : Nat × Int)
    (i : Nat) :
    (moveStep bFrom bTo C q).gainCacheArr i
      = C.gainCacheArr i
        + (if i = q.1 * C.k + bTo then q.2 else 0)
        - (if i = q.1 * C.k + bFrom then q.2 else 0) := by
  have hidx : ∀ a b, C.index a b = a * C.k + b := fun _ _ => rfl
  show (Function.update
      (Function.update C.gainCacheArr (C.index q.1 bFrom)
        (C.gainCacheArr (C.index q.1 bFrom) - q.2))
      (C.index q.1 bTo)
      ((Function.update C.gainCacheArr (C.index q.1 bFrom)
        (C.gainCacheArr (C.index q.1 bFrom) - q.2)) (C.index q.1 bTo)
        + q.2)) i = _
  rw [hidx, hidx, Function.update_apply, Function.update_apply]
  by_cases h1 : i = q.1 * C.k + bTo
  · rw [if_pos h1, if_pos h1]
    subst h1
    by_cases h2 : q.1 * C.k + bTo = q.1 * C.k + bFrom
    · rw [if_pos h2, if_pos h2, h2]
      omega
    · rw [if_neg h2, if_neg h2]
      omega
  · rw [if_neg h1, if_neg h1, Function.update_apply]
    by_cases h2 : i = q.1 * C.k + bFrom
    · rw [if_pos h2, if_pos h2]
      subst h2
      omega
    · rw [if_neg h2, if_neg h2]
      omega

theorem moveStep_wd (bFrom bTo : Nat) (C : DenseGainCache) (q : Nat × Int) :
    (moveStep bFrom bTo C q).weightedDegrees = C.weightedDegrees := rfl

theorem move_foldl_k (bFrom bTo : Nat) :
    ∀ (L : List (Nat × Int)) (C : DenseGainCache),
      (L.foldl (moveStep bFrom bTo) C).k = C.k := by
  intro L
  induction L with
  | nil => intro C; rfl
  | cons a t ih => intro C; rw [List.foldl_cons, ih]; rfl

theorem move_foldl_gc (bFrom bTo : Nat) (k : Nat) :
    ∀ (L : List (Nat × Int)) (C : DenseGainCache), C.k = k → ∀ i,
      (L.foldl (moveStep bFrom bTo) C).gainCacheArr i
        = C.gainCacheArr i
          + sumW (L.filter (fun q => q.1 * k + bTo = i))
          - sumW (L.filter (fun q => q.1 * k + bFrom = i)) := by
  intro L
  induction L with
  | nil => intro C _ i; simp [sumW]
  | cons a t ih =>
      intro C hk i
      rw [List.foldl_cons, ih (moveStep bFrom bTo C a) (by simp [hk]),
        sumW_filter_cons, sumW_filter_cons, moveStep_gc, hk]
      by_cases h1 : a.1 * k + bTo = i
      · by_cases h2 : a.1 * k + bFrom = i
        · rw [if_pos h1.symm, if_pos h2.symm, if_pos (by simp [h1]),
            if_pos (by simp [h2])]
          omega
        · rw [if_pos h1.symm, if_neg (fun hc => h2 hc.symm),
            if_pos (by simp [h1]), if_neg (by simp [h2])]
          omega
      · by_cases h2 : a.1 * k + bFrom = i
        · rw [if_neg (fun hc => h1 hc.symm), if_pos h2.symm,
            if_neg (by simp [h1]), if_pos (by simp [h2])]
          omega
        · rw [if_neg (fun hc => h1 hc.symm), if_neg (fun hc => h2 hc.symm),
            if_neg (by simp [h1]), if_neg (by simp [h2])]
          omega

theorem move_k (G : Graph) (C : DenseGainCache) (node bFrom bTo : Nat) :
    (C.move G node bFrom bTo).k = C.k := by
  unfold move
  rw [move_foldl_k]

theorem move_wd (G : Graph) (C : DenseGainCache) (node bFrom bTo : Nat) :
    (C.move G node bFrom bTo).weightedDegrees = C.weightedDegrees := by
  unfold move
  generalize G.nbrs node = L
  induction L generalizing C with
  | nil => rfl
  | cons a t ih => rw [List.foldl_cons, ih]; rfl

theorem move_gc (G : Graph) (C : DenseGainCache) (node bFrom bTo x c : Nat)
    (hc : c < C.k) (hFrom : bFrom < C.k) (hTo : bTo < C.k) :
    (C.move G node bFrom bTo).weightedDegreeTo x c
      = C.weightedDegreeTo x c
        + (if bTo = c then G.wTo node x else 0)
        - (if bFrom = c then G.wTo node x else 0) := by
  unfold move weightedDegreeTo index
  rw [move_foldl_k, move_foldl_gc bFrom bTo C.k (G.nbrs node) C rfl]
  congr 1
  · congr 1
    by_cases h : bTo = c
    · rw [if_pos h]
      unfold Graph.wTo
      apply sumW_filter_congr
      intro q _
      simp only [decide_eq_decide]
      rw [index_inj hTo hc]
      constructor
      · exact fun hh => hh.1
      · exact fun hh => ⟨hh, h⟩
    · rw [if_neg h]
      apply sumW_filter_false
      intro q _
      simp only [decide_eq_false_iff_not]
      intro hcontr
      exact h ((index_inj hTo hc).mp hcontr).2
  · by_cases h : bFrom = c
    · rw [if_pos h]
      unfold Graph.wTo
      apply sumW_filter_congr
      intro q _
      simp only [decide_eq_decide]
      rw [index_inj hFrom hc]
      constructor
      · exact fun hh => hh.1
      · exact fun hh => ⟨hh, h⟩
    · rw [if_neg h]
      apply sumW_filter_false
      intro q _
      simp only [decide_eq_false_iff_not]
      intro hcontr
      exact h ((index_inj hFrom hc).mp hcontr).2

end DenseGainCache

theorem sumW_filter_update (l : List (Nat × Int)) (p : Partition)
    (u bTo c : Nat) :
    sumW (l.filter fun q => Function.update p u bTo q.1 = c)
      = sumW (l.filter fun q => p q.1 = c)
        + (if bTo = c then sumW (l.filter fun q => q.1 = u) else 0)
        - (if p u = c then sumW (l.filter fun q => q.1 = u) else 0) := by
  induction l with
  | nil => simp [sumW]
  | cons a t ih =>
      rw [sumW_filter_cons, sumW_filter_cons, sumW_filter_cons, ih]
      by_cases ha : a.1 = u
      · rw [ha, Function.update_same]
        by_cases h1 : bTo = c <;> by_cases h2 : p u = c <;>
          simp [h1, h2] <;> omega
      · rw [Function.update_noteq ha]
        by_cases h1 : bTo = c <;> by_cases h2 : p u = c <;>
          by_cases h3 : p a.1 = c <;> simp [h1, h2, h3, ha] <;> omega

theorem conn_update (G : Graph) (p : Partition) (u bTo x c : Nat) :
    conn G (Function.update p u bTo) x c
      = conn G p x c
        + (if bTo = c then G.wTo x u else 0)
        - (if p u = c then G.wTo x u else 0) := by
  unfold conn Graph.wTo
  exact sumW_filter_update (G.nbrs x) p u bTo c

theorem sum_sumW_filter (k : Nat) (p : Partition) :
    ∀ l : List (Nat × Int), (∀ q ∈ l, p q.1 < k) →
      (∑ b ∈ Finset.range k, sumW (l.filter fun q => p q.1 = b))
        = sumW l := by
  intro l
  induction l with
  | nil => intro _; simp [sumW]
  | cons a t ih =>
      intro hnb
      calc ∑ b ∈ Finset.range k,
          sumW ((a :: t).filter fun q => p q.1 = b)
          = ∑ b ∈ Finset.range k,
            ((if p a.1 = b then a.2 else 0)
              + sumW (t.filter fun q => p q.1 = b)) := by
            refine Finset.sum_congr rfl fun b _ => ?_
            rw [sumW_filter_cons]
            by_cases h : p a.1 = b <;> simp [h]
        _ = (∑ b ∈ Finset.range k, if p a.1 = b then a.2 else 0)
              + ∑ b ∈ Finset.range k,
                sumW (t.filter fun q => p q.1 = b) := by
            rw [Finset.sum_add_distrib]
        _ = a.2 + sumW t := by
            rw [ih fun q hq => hnb q (by simp [hq]), Finset.sum_ite_eq]
            simp [Finset.mem_range.mpr (hnb a (by simp))]
        _ = sumW (a :: t) := (sumW_cons a t).symm

theorem sum_conn (G : Graph) (p : Partition) (u k : Nat)
    (hnb : ∀ q ∈ G.nbrs u, p q.1 < k) :
    (∑ b ∈ Finset.range k, conn G p u b) = G.wDeg u := by
  unfold conn Graph.wDeg
  exact sum_sumW_filter k p (G.nbrs u) hnb

theorem initCache_consistent (G : Graph) (p : Partition) (C : DenseGainCache)
    (hp : ∀ a, a < G.numNodes → ∀ q ∈ G.nbrs a, p q.1 < C.k) :
    Consistent G p (C.initCache G p) := by
  constructor
  · intro u hu b hb
    rw [DenseGainCache.initCache_k] at hb
    exact DenseGainCache.initCache_gc G p C u b hu hb hp
  · intro u hu
    exact DenseGainCache.initCache_wd G p C u hu

theorem move_consistent (G : Graph) (p : Partition) (C : DenseGainCache)
    (u bTo : Nat) (hsymm : G.Symm)
    (hp : ∀ v, v < G.numNodes → p v < C.k)
    (hu : u < G.numNodes) (hbTo : bTo < C.k)
    (hcons : Consistent G p C) :
    Consistent G (Function.update p u bTo) (C.move G u (p u) bTo) := by
  obtain ⟨hgc, hwd⟩ := hcons
  constructor
  · intro x hx b hb
    rw [DenseGainCache.move_k] at hb
    rw [DenseGainCache.move_gc G C u (p u) bTo x b hb (hp u hu) hbTo,
      conn_update, hgc x hx b hb, hsymm u hu x hx]
  · intro x hx
    have h := congrFun (DenseGainCache.move_wd G C u (p u) bTo) x
    rw [h]
    exact hwd x hx

theorem applyMoves_k (G : Graph) :
    ∀ (ms : List (Nat × Nat)) (C : DenseGainCache) (p : Partition),
      (applyMoves G ms (C, p)).1.k = C.k := by
  intro ms
  induction ms with
  | nil => intro C p; rfl
  | cons m t ih =>
      intro C p
      show (applyMoves G t
        (C.move G m.1 (p m.1) m.2, Function.update p m.1 m.2)).1.k = C.k
      rw [ih, DenseGainCache.move_k]

theorem applyMoves_consistent (G : Graph) (hsymm : G.Symm) :
    ∀ (ms : List (Nat × Nat)) (C : DenseGainCache) (p : Partition),
      (∀ v, v < G.numNodes → p v < C.k) →
      (∀ m ∈ ms, m.1 < G.numNodes ∧ m.2 < C.k) →
      Consistent G p C →
      Consistent G (applyMoves G ms (C, p)).2 (applyMoves G ms (C, p)).1 ∧
      (∀ v, v < G.numNodes → (applyMoves G ms (C, p)).2 v < C.k) := by
  intro ms
  induction ms with
  | nil =>
      intro C p hp _ hcons
      exact ⟨hcons, hp⟩
  | cons m t ih =>
      intro C p hp hms hcons
      have hm := hms m (by simp)
      have hk : (C.move G m.1 (p m.1) m.2).k = C.k :=
        DenseGainCache.move_k G C m.1 (p m.1) m.2
      have hp' : ∀ v, v < G.numNodes →
          Function.update p m.1 m.2 v < (C.move G m.1 (p m.1) m.2).k := by
        intro v hv
        rw [hk, Function.update_apply]
        by_cases hvm : v = m.1
        · rw [if_pos hvm]; exact hm.2
        · rw [if_neg hvm]; exact hp v hv
      have hms' : ∀ x ∈ t, x.1 < G.numNodes ∧
          x.2 < (C.move G m.1 (p m.1) m.2).k := by
        intro x hx
        rw [hk]
        exact hms x (by simp [hx])
      have hcons' := move_consistent G p C m.1 m.2 hsymm hp hm.1 hm.2 hcons
      have := ih (C.move G m.1 (p m.1) m.2) (Function.update p m.1 m.2)
        hp' hms' hcons'
      rw [hk] at this
      exact this

/-! ## Claim theorems for the gain cache invariant (C4) -/

/-- Claim C4 (confirmed): for every symmetric partitioned graph, after
`DenseGainCache::initialize` and any sequence of `move` calls mirroring the
partition's moves, every node `u` satisfies
`Σ_b wdeg[u,b] = deg[u]` (the weighted degree of `u`), every entry
`wdeg[u,b]` equals the total edge weight from `u` to neighbors currently in
block `b`, and `gain(u,a,b) = wdeg[u,b] − wdeg[u,a] = conn(u,b) − conn(u,a)`. -/
theorem C4_gain_cache_invariant (G : Graph) (k : Nat) (p0 : Partition)
    (ms : List (Nat × Nat)) (hsymm : G.Symm) (htgt : G.TargetsLt)
    (hp0 : ∀ v, v < G.numNodes → p0 v < k)
    (hms : ∀ m ∈ ms, m.1 < G.numNodes ∧ m.2 < k) :
    ∀ u, u < G.numNodes →
      ((∑ b ∈ Finset.range k,
        (applyMoves G ms
          ((mkCache k G.numNodes).initCache G p0, p0)).1.weightedDegreeTo u b)
          = (applyMoves G ms
            ((mkCache k G.numNodes).initCache G p0, p0)).1.weightedDegrees u) ∧
      ((applyMoves G ms
        ((mkCache k G.numNodes).initCache G p0, p0)).1.weightedDegrees u
          = G.wDeg u) ∧
      (∀ b, b < k →
        (applyMoves G ms
          ((mkCache k G.numNodes).initCache G p0, p0)).1.weightedDegreeTo u b
          = conn G (applyMoves G ms
              ((mkCache k G.numNodes).initCache G p0, p0)).2 u b) ∧
      (∀ a b, a < k → b < k →
        (applyMoves G ms
          ((mkCache k G.numNodes).initCache G p0, p0)).1.gain u a b
          = conn G (applyMoves G ms
              ((mkCache k G.numNodes).initCache G p0, p0)).2 u b
            - conn G (applyMoves G ms
              ((mkCache k G.numNodes).initCache G p0, p0)).2 u a) := by
  intro u hu
  have hC0k : ((mkCache k G.numNodes).initCache G p0).k = k := by
    rw [DenseGainCache.initCache_k]; rfl
  have hp0' : ∀ a, a < G.numNodes → ∀ q ∈ G.nbrs a,
      p0 q.1 < (mkCache k G.numNodes).k :=
    fun a ha q hq => hp0 q.1 (htgt a ha q hq)
  have hcons0 : Consistent G p0 ((mkCache k G.numNodes).initCache G p0) :=
    initCache_consistent G p0 (mkCache k G.numNodes) hp0'
  have hmain := applyMoves_consistent G hsymm ms
    ((mkCache k G.numNodes).initCache G p0) p0
    (fun v hv => by rw [hC0k]; exact hp0 v hv)
    (fun m hm => by rw [hC0k]; exact hms m hm) hcons0
  obtain ⟨⟨hgc, hwd⟩, hrange⟩ := hmain
  rw [hC0k] at hrange
  have hkk : (applyMoves G ms
      ((mkCache k G.numNodes).initCache G p0, p0)).1.k = k := by
    rw [applyMoves_k, hC0k]
  have hconn : ∀ b, b < k → (applyMoves G ms
      ((mkCache k G.numNodes).initCache G p0, p0)).1.weightedDegreeTo u b
        = conn G (applyMoves G ms
          ((mkCache k G.numNodes).initCache G p0, p0)).2 u b := by
    intro b hb
    exact hgc u hu b (by rw [hkk]; exact hb)
  refine ⟨?_, hwd u hu, hconn, ?_⟩
  · rw [Finset.sum_congr rfl fun b hb => hconn b (Finset.mem_range.mp hb)]
    rw [sum_conn G _ u k
      (fun q hq => hrange q.1 (htgt u hu q hq)), hwd u hu]
  · intro a b ha hb
    unfold DenseGainCache.gain
    rw [hconn a ha, hconn b hb]

/-- Witness for C4: the path scenario with the single move `(1, 1→0)`
satisfies all hypotheses, and the invariant holds there. -/
theorem C4_witness :
    pathGraph4.Symm ∧ pathGraph4.TargetsLt ∧
    (∀ v, v < pathGraph4.numNodes → pathPartition v < 2) ∧
    (∀ m ∈ ([(1, 0)] : List (Nat × Nat)),
      m.1 < pathGraph4.numNodes ∧ m.2 < 2) ∧
    (∀ u, u < pathGraph4.numNodes →
      ((∑ b ∈ Finset.range 2,
        (applyMoves pathGraph4 [(1, 0)]
          ((mkCache 2 pathGraph4.numNodes).initCache pathGraph4 pathPartition,
            pathPartition)).1.weightedDegreeTo u b)
          = (applyMoves pathGraph4 [(1, 0)]
            ((mkCache 2 pathGraph4.numNodes).initCache pathGraph4
              pathPartition, pathPartition)).1.weightedDegrees u) ∧
      ((applyMoves pathGraph4 [(1, 0)]
        ((mkCache 2 pathGraph4.numNodes).initCache pathGraph4 pathPartition,
          pathPartition)).1.weightedDegrees u = pathGraph4.wDeg u) ∧
      (∀ b, b < 2 →
        (applyMoves pathGraph4 [(1, 0)]
          ((mkCache 2 pathGraph4.numNodes).initCache pathGraph4 pathPartition,
            pathPartition)).1.weightedDegreeTo u b
          = conn pathGraph4 (applyMoves pathGraph4 [(1, 0)]
              ((mkCache 2 pathGraph4.numNodes).initCache pathGraph4
                pathPartition, pathPartition)).2 u b) ∧
      (∀ a b, a < 2 → b < 2 →
        (applyMoves pathGraph4 [(1, 0)]
          ((mkCache 2 pathGraph4.numNodes).initCache pathGraph4 pathPartition,
            pathPartition)).1.gain u a b
          = conn pathGraph4 (applyMoves pathGraph4 [(1, 0)]
              ((mkCache 2 pathGraph4.numNodes).initCache pathGraph4
                pathPartition, pathPartition)).2 u b
            - conn pathGraph4 (applyMoves pathGraph4 [(1, 0)]
              ((mkCache 2 pathGraph4.numNodes).initCache pathGraph4
                pathPartition, pathPartition)).2 u a)) :=
  ⟨by decide, by decide, by decide, by decide,
    C4_gain_cache_invariant pathGraph4 2 pathPartition [(1, 0)]
      (by decide) (by decide) (by decide) (by decide)⟩

/-! ## Claim theorems for the label-propagation weight constraint (C3) -/

/-- Claim C3 (counterexample): a candidate move whose resulting block weight
equals the cap exactly (9 + 1 = 10 ≤ 10) is refused by the weight constraint
of `accept_cluster` — the code tests `current_cluster_weight + u_weight <
current_max_weight` with strict `<` — even though the gain clause accepts,
falsifying the claim that at-or-below-cap moves are never refused. -/
theorem C3_counterexample :
    lpBoundaryState.currentClusterWeight + lpBoundaryState.uWeight
        ≤ lpCap10 lpBoundaryState.currentCluster ∧
    LabelPropagationRefiner.weightClause lpCap10 lpBoundaryState = false ∧
    LabelPropagationRefiner.gainClause lpCap10 lpBoundaryState = true ∧
    LabelPropagationRefiner.acceptCluster lpCap10 lpBoundaryState = false :=
  ⟨by decide, by decide, by decide, by decide⟩

/-- Claim C3 (amended): a candidate move whose resulting weight stays
strictly below the target block's cap is never refused by the weight
constraint; a move whose resulting weight reaches or exceeds the cap is
refused unless the target block's overload is smaller than the initial
overload of `u`'s initial block, or the target block is `u`'s initial
block. -/
theorem C3_weight_constraint (maxW : Nat → Int) (s : ClusterSelectionState) :
    (s.currentClusterWeight + s.uWeight < maxW s.currentCluster →
      LabelPropagationRefiner.weightClause maxW s = true) ∧
    (maxW s.currentCluster ≤ s.currentClusterWeight + s.uWeight →
      (LabelPropagationRefiner.weightClause maxW s = true ↔
        (s.currentClusterWeight - maxW s.currentCluster
            < s.initialClusterWeight - maxW s.initialCluster ∨
          s.currentCluster = s.initialCluster))) := by
  constructor
  · intro h
    simp only [LabelPropagationRefiner.weightClause, Bool.or_eq_true,
      decide_eq_true_eq]
    exact Or.inl (Or.inl h)
  · intro h
    simp only [LabelPropagationRefiner.weightClause, Bool.or_eq_true,
      decide_eq_true_eq, beq_iff_eq]
    constructor
    · rintro ((h1 | h2) | h3)
      · omega
      · exact Or.inl h2
      · exact Or.inr h3
    · rintro (h1 | h2)
      · exact Or.inl (Or.inr h1)
      · exact Or.inr h2

/-- Witness for C3: with cap 12 the boundary state's move results in weight
10 < 12 and the weight constraint accepts it. -/
theorem C3_witness :
    (lpBoundaryState.currentClusterWeight + lpBoundaryState.uWeight
        < lpCap12 lpBoundaryState.currentCluster) ∧
    LabelPropagationRefiner.weightClause lpCap12 lpBoundaryState = true :=
  ⟨by decide, (C3_weight_constraint lpCap12 lpBoundaryState).1 (by decide)⟩

/-! ## Claim theorems for the JET tie-break symmetry (C5) -/

/-- Claim C5 (confirmed): for any proposal table and two distinct nodes `u`
and `v`, exactly one of the pair treats the other as already moved in the
filter phase's projected-gain computation: `v` is treated as moved by `u`'s
computation if and only if `u` is not treated as moved by `v`'s. -/
theorem C5_tiebreak_symmetry (gt : Nat → Int × Nat) (u v : Nat)
    (huv : u ≠ v) :
    jetTreatsAsMoved gt v u = true ↔ jetTreatsAsMoved gt u v = false := by
  simp only [jetTreatsAsMoved, Bool.or_eq_true, Bool.and_eq_true,
    decide_eq_true_eq, beq_iff_eq, Bool.or_eq_false_iff,
    Bool.and_eq_false_iff, decide_eq_false_iff_not, beq_eq_false_iff_ne,
    ne_eq]
  constructor
  · rintro (h | ⟨h1, h2⟩)
    · exact ⟨by omega, by omega⟩
    · exact ⟨by omega, by omega⟩
  · rintro ⟨h1, h2⟩
    rcases h2 with h2 | h2
    · omega
    · rcases lt_trichotomy ((gt v).1) ((gt u).1) with h | h | h
      · omega
      · right
        exact ⟨h, by omega⟩
      · left
        omega

/-- Witness for C5: the distinct nodes 0 and 1 with the flat proposal
table. -/
theorem C5_witness :
    (0 : Nat) ≠ 1 ∧
    (jetTreatsAsMoved jetFlatProposals 1 0 = true ↔
      jetTreatsAsMoved jetFlatProposals 0 1 = false) :=
  ⟨by decide, C5_tiebreak_symmetry jetFlatProposals 0 1 (by decide)⟩

/-! ## Claim theorems for FastResetArray::exists (C8) -/

theorem fraClear_foldl {α : Type} [Inhabited α] :
    ∀ (l : List Nat) (d : Nat → α) (pos : Nat),
      (l.foldl (fun d p => Function.update d p default) d) pos
        = if pos ∈ l then default else d pos := by
  intro l
  induction l with
  | nil => intro d pos; simp
  | cons a t ih =>
      intro d pos
      rw [List.foldl_cons, ih]
      by_cases h : pos ∈ t
      · simp [h]
      · by_cases ha : pos = a
        · subst ha
          simp [h]
        · simp [h, ha, Function.update_noteq ha]

theorem fraInv_step {α : Type} [Inhabited α] [DecidableEq α]
    (A : FastResetArray α) (f : Nat → α) (h : FraInv A f) (op : FraOp α) :
    FraInv (fraApplyOp A op) (fraRefOp f op) := by
  obtain ⟨hdat, hused⟩ := h
  cases op with
  | set pos v =>
      show FraInv (A.set pos v) (Function.update f pos v)
      unfold FastResetArray.set
      by_cases h0 : A.data pos = default
      · rw [if_pos h0]
        refine ⟨fun p => ?_, fun p hne => ?_⟩
        · by_cases hp : p = pos
          · subst hp; simp
          · simp [Function.update_noteq hp, hdat p]
        · show p ∈ A.usedEntries ++ [pos]
          by_cases hp : p = pos
          · simp [hp]
          · change Function.update A.data pos v p ≠ default at hne
            rw [Function.update_noteq hp] at hne
            exact List.mem_append_left _ (hused p hne)
      · rw [if_neg h0]
        refine ⟨fun p => ?_, fun p hne => ?_⟩
        · by_cases hp : p = pos
          · subst hp; simp
          · simp [Function.update_noteq hp, hdat p]
        · show p ∈ A.usedEntries
          by_cases hp : p = pos
          · subst hp; exact hused p h0
          · change Function.update A.data pos v p ≠ default at hne
            rw [Function.update_noteq hp] at hne
            exact hused p hne
  | clear =>
      show FraInv A.clear (fun _ => default)
      have hall : ∀ p, A.clear.data p = default := by
        intro p
        show (A.usedEntries.foldl
          (fun d pos => Function.update d pos default) A.data) p = default
        rw [fraClear_foldl]
        by_cases hp : p ∈ A.usedEntries
        · rw [if_pos hp]
        · rw [if_neg hp]
          by_contra hne
          exact hp (hused p hne)
      exact ⟨fun p => hall p, fun p hne => absurd (hall p) hne⟩

theorem fraInv_ops {α : Type} [Inhabited α] [DecidableEq α] :
    ∀ (ops : List (FraOp α)) (A : FastResetArray α) (f : Nat → α),
      FraInv A f → FraInv (fraApplyOps A ops) (fraRefOps f ops) := by
  intro ops
  induction ops with
  | nil => intro A f h; exact h
  | cons op t ih =>
      intro A f h
      exact ih (fraApplyOp A op) (fraRefOp f op) (fraInv_step A f h op)

/-- Claim C8 (confirmed): after any sequence of `set`/`clear` operations on
a fresh `FastResetArray`, `exists(pos)` returns true if and only if the
entry at `pos` currently holds the default-constructed `Value()` — i.e. it
reports true exactly for entries still at the default value and false for
entries set to a non-default value (the reference semantics tracks the
current value of each entry). -/
theorem C8_exists_iff_default {α : Type} [Inhabited α] [DecidableEq α]
    (cap : Nat) (ops : List (FraOp α)) (pos : Nat) (hpos : pos < cap) :
    (fraApplyOps (FastResetArray.fraInit α cap) ops).existsEntry pos
      = decide (fraRefOps (fun _ => default) ops pos = default) := by
  have h0 : FraInv (FastResetArray.fraInit α cap)
      (fun _ : Nat => (default : α)) :=
    ⟨fun _ => rfl, fun p hne => absurd rfl hne⟩
  have h := fraInv_ops ops _ _ h0
  simp only [FastResetArray.existsEntry, h.1 pos]

/-- Witness for C8: capacity 3, the single operation `set(1, 5)`, queried at
position 1. -/
theorem C8_witness :
    (1 : Nat) < 3 ∧
    ((fraApplyOps (FastResetArray.fraInit Int 3)
        [FraOp.set 1 5]).existsEntry 1
      = decide (fraRefOps (fun _ => (default : Int))
          [FraOp.set 1 5] 1 = default)) :=
  ⟨by decide, C8_exists_iff_default 3 [FraOp.set 1 5] 1 (by decide)⟩

/-! ## Claim theorems for the circular vector (C7) -/

theorem getD_set_self (v : Nat) :
    ∀ (l : List Nat) (i : Nat), i < l.length → (l.set i v).getD i 0 = v := by
  intro l
  induction l with
  | nil => intro i h; simp at h
  | cons a t ih =>
      intro i h
      cases i with
      | zero => rfl
      | succ n =>
          show (t.set n v).getD n 0 = v
          exact ih n (by simpa using h)

theorem getD_set_ne (v : Nat) :
    ∀ (l : List Nat) (i j : Nat), j ≠ i → (l.set i v).getD j 0 = l.getD j 0 := by
  intro l
  induction l with
  | nil => intro i j _; simp [List.set]
  | cons a t ih =>
      intro i j hne
      cases i with
      | zero =>
          cases j with
          | zero => exact absurd rfl hne
          | succ m => rfl
      | succ n =>
          cases j with
          | zero => rfl
          | succ m =>
              show (t.set n v).getD m 0 = t.getD m 0
              exact ih n m (fun h => hne (by rw [h]))

theorem cvPrev_eq_mod (B t : Nat) (hB : 1 ≤ B) :
    cvPrev B t = (t + (B - 1)) % B := by
  unfold cvPrev
  have hm : t % B < B := Nat.mod_lt _ (by omega)
  by_cases h : t % B = 0
  · rw [if_pos h, Nat.add_mod, h]
    simp [Nat.mod_eq_of_lt (show B - 1 < B by omega)]
  · rw [if_neg h, Nat.add_mod]
    rw [Nat.mod_eq_of_lt (show B - 1 < B by omega)]
    have h2 : t % B + (B - 1) = (t % B - 1) + B := by omega
    rw [h2, Nat.add_mod_right]
    exact (Nat.mod_eq_of_lt (by omega)).symm

theorem cv_pos_ne_prev (B t : Nat) (hB : 2 ≤ B) :
    t % B ≠ (t + (B - 1)) % B := by
  rw [← cvPrev_eq_mod B t (by omega)]
  unfold cvPrev
  have hm : t % B < B := Nat.mod_lt _ (by omega)
  intro hcontr
  by_cases h : t % B = 0
  · rw [if_pos h] at hcontr
    omega
  · rw [if_neg h] at hcontr
    omega

theorem runTickets_inv (w B : Nat) (hB : 2 ≤ B) :
    ∀ (ds : List Nat) (t S : Nat) (V : CircVec),
      V.w = w → V.buffer.length = B →
      (∀ j, j < B → V.buffer.getD j 0
        = if j = (t + (B - 1)) % B then S else kLock w) →
      (∀ i, i ≤ ds.length → S + (ds.take i).sum < kLock w) →
      ∃ V', runTickets V t ds = some (accList S ds, V') ∧
        V'.w = w ∧ V'.buffer.length = B ∧
        ∀ j, j < B → V'.buffer.getD j 0
          = if j = (t + ds.length + (B - 1)) % B then S + ds.sum
            else kLock w := by
  intro ds
  induction ds with
  | nil =>
      intro t S V hw hlen hchar hsums
      refine ⟨V, rfl, hw, hlen, ?_⟩
      intro j hj
      rw [hchar j hj]
      simp
  | cons d dt ih =>
      intro t S V hw hlen hchar hsums
      have hprevlt : cvPrev B t < B := by
        unfold cvPrev
        have : t % B < B := Nat.mod_lt _ (by omega)
        by_cases h : t % B = 0
        · rw [if_pos h]; omega
        · rw [if_neg h]; omega
      have hSlt : S < kLock w := by
        have := hsums 0 (Nat.zero_le _)
        simpa using this
      have hSd : S + d < kLock w := by
        have := hsums 1 (by simp)
        simpa using this
      have hval : V.buffer.getD (cvPrev B t) 0 = S := by
        rw [hchar (cvPrev B t) hprevlt,
          if_pos (cvPrev_eq_mod B t (by omega))]
      have hfu : fetchAndUpdate V t d = some (S,
          { V with buffer :=
              ((V.buffer.set (cvPrev B t) (kLock w)).set (t % B)
                ((S + d) % 2 ^ w)) }) := by
        unfold fetchAndUpdate
        rw [hlen, hval, hw, if_neg (by omega)]
      have hmodval : (S + d) % 2 ^ w = S + d := by
        apply Nat.mod_eq_of_lt
        unfold kLock at hSd
        have hpow : 1 ≤ 2 ^ w := Nat.one_le_two_pow
        omega
      have hlen1 : ((V.buffer.set (cvPrev B t) (kLock w)).set (t % B)
          ((S + d) % 2 ^ w)).length = B := by
        simp [hlen]
      have hchar1 : ∀ j, j < B →
          ((V.buffer.set (cvPrev B t) (kLock w)).set (t % B)
            ((S + d) % 2 ^ w)).getD j 0
          = if j = (t + 1 + (B - 1)) % B then S + d else kLock w := by
        intro j hj
        have hpos : (t + 1 + (B - 1)) % B = t % B := by
          have : t + 1 + (B - 1) = t + B := by omega
          rw [this, Nat.add_mod_right]
        rw [hpos]
        by_cases hjp : j = t % B
        · rw [if_pos hjp, hjp, getD_set_self _ _ _
            (by rw [List.length_set, hlen]; exact Nat.mod_lt _ (by omega)),
            hmodval]
        · rw [if_neg hjp, getD_set_ne _ _ _ _ hjp]
          by_cases hjq : j = cvPrev B t
          · rw [hjq, getD_set_self _ _ _ (by rw [hlen]; exact hprevlt)]
          · rw [getD_set_ne _ _ _ _ hjq, hchar j hj]
            rw [if_neg (by rw [← cvPrev_eq_mod B t (by omega)]; exact hjq)]
      have hsums1 : ∀ i, i ≤ dt.length → (S + d) + (dt.take i).sum
          < kLock w := by
        intro i hi
        have := hsums (i + 1) (by simpa using Nat.succ_le_succ hi)
        rw [List.take_succ_cons, List.sum_cons] at this
        omega
      obtain ⟨V', hrun, hw', hlen', hchar'⟩ := ih (t + 1) (S + d)
        { V with buffer :=
            ((V.buffer.set (cvPrev B t) (kLock w)).set (t % B)
              ((S + d) % 2 ^ w)) }
        hw hlen1 hchar1 hsums1
      refine ⟨V', ?_, hw', hlen', ?_⟩
      · show runTickets V t (d :: dt) = _
        simp only [runTickets, hfu, hrun, accList]
      · intro j hj
        rw [hchar' j hj]
        have he1 : t + 1 + dt.length + (B - 1)
            = t + (d :: dt).length + (B - 1) := by
          simp
          omega
        have he2 : S + d + dt.sum = S + (d :: dt).sum := by
          simp
          omega
        rw [he1, he2]

theorem accList_eq_map (S : Nat) :
    ∀ ds : List Nat,
      accList S ds
        = (List.range ds.length).map (fun i => S + (ds.take i).sum) := by
  intro ds
  induction ds generalizing S with
  | nil => rfl
  | cons d dt ih =>
      show S :: accList (S + d) dt = _
      rw [ih (S + d)]
      rw [show (d :: dt).length = dt.length + 1 from rfl,
        List.range_succ_eq_map]
      rw [List.map_cons, List.map_map]
      refine congrArg₂ List.cons (by simp) ?_
      refine List.map_congr_left fun i _ => ?_
      show S + d + (dt.take i).sum = S + ((d :: dt).take (i + 1)).sum
      rw [List.take_succ_cons, List.sum_cons]
      omega

/-- Claim C7 (confirmed): when tickets are processed in order, the `i`-th
`fetch_and_update` call returns the sum of the deltas of all earlier
tickets (the first returns 0); afterwards the slot of ticket `i` holds that
sum plus `δᵢ`, and the previous slot holds the sentinel, which is the
maximum representable value `2^w − 1`.  Hypotheses: the vector size is at
least 1 (at least as large as the number of concurrent tasks), and all
prefix sums stay below the sentinel (the source asserts
`value + delta != kLock`). -/
theorem getD_replicate_append (x y : Nat) :
    ∀ (n j : Nat), j ≤ n →
      (List.replicate n x ++ [y]).getD j 0 = if j = n then y else x := by
  intro n
  induction n with
  | zero =>
      intro j hj
      interval_cases j
      rfl
  | succ m ih =>
      intro j hj
      cases j with
      | zero =>
          rw [if_neg (by omega)]
          rfl
      | succ i =>
          show (List.replicate m x ++ [y]).getD i 0
            = if i + 1 = m + 1 then y else x
          rw [ih i (by omega)]
          by_cases h : i = m
          · rw [if_pos h, if_pos (by omega)]
          · rw [if_neg h, if_neg (by omega)]

theorem C7_circular_vector (w size : Nat) (ds : List Nat) (hsize : 1 ≤ size)
    (hsums : ∀ i, i ≤ ds.length → (ds.take i).sum < kLock w) :
    (runReturns (cvInit w size) 0 ds
      = some ((List.range ds.length).map fun i => (ds.take i).sum)) ∧
    ∀ i, i < ds.length →
      ∃ Vi, runState (cvInit w size) 0 (ds.take (i + 1)) = some Vi ∧
        Vi.buffer.getD (i % (size + 1)) 0 = (ds.take (i + 1)).sum ∧
        Vi.buffer.getD ((i + size) % (size + 1)) 0 = kLock w ∧
        kLock w = 2 ^ w - 1 := by
  have hB : 2 ≤ size + 1 := by omega
  have hlen : (cvInit w size).buffer.length = size + 1 := by
    simp [cvInit]
  have hchar : ∀ j, j < size + 1 →
      (cvInit w size).buffer.getD j 0
        = if j = (0 + (size + 1 - 1)) % (size + 1) then 0 else kLock w := by
    intro j hj
    have hmod : (0 + (size + 1 - 1)) % (size + 1) = size := by
      simp [Nat.mod_eq_of_lt (show size < size + 1 by omega)]
    rw [hmod]
    show (List.replicate size (kLock w) ++ [0]).getD j 0 = _
    rw [getD_replicate_append (kLock w) 0 size j (by omega)]
  constructor
  · obtain ⟨V', hrun, _, _, _⟩ := runTickets_inv w (size + 1) hB ds 0 0
      (cvInit w size) rfl hlen hchar (by simpa using hsums)
    unfold runReturns
    rw [hrun, accList_eq_map]
    simp
  · intro i hi
    have htk : ∀ j, j ≤ (ds.take (i + 1)).length →
        0 + ((ds.take (i + 1)).take j).sum < kLock w := by
      intro j hj
      rw [List.take_take]
      have hmin : min j (i + 1) ≤ ds.length := by
        rw [List.length_take] at hj
        omega
      simpa using hsums (min j (i + 1)) hmin
    obtain ⟨V', hrun, hwV, hlenV, hcharV⟩ := runTickets_inv w (size + 1) hB
      (ds.take (i + 1)) 0 0 (cvInit w size) rfl hlen hchar htk
    have hlent : (ds.take (i + 1)).length = i + 1 := by
      rw [List.length_take]
      omega
    have hidx : (0 + (ds.take (i + 1)).length + (size + 1 - 1)) % (size + 1)
        = i % (size + 1) := by
      rw [hlent]
      have he : 0 + (i + 1) + (size + 1 - 1) = i + (size + 1) := by omega
      rw [he, Nat.add_mod_right]
    have hcp : i % (size + 1) ≠ (i + size) % (size + 1) := by
      have h0 := cv_pos_ne_prev (size + 1) i hB
      rwa [Nat.add_sub_cancel] at h0
    refine ⟨V', ?_, ?_, ?_, rfl⟩
    · unfold runState
      rw [hrun]
      rfl
    · rw [hcharV (i % (size + 1)) (Nat.mod_lt _ (by omega)), hidx,
        if_pos rfl]
      omega
    · rw [hcharV ((i + size) % (size + 1)) (Nat.mod_lt _ (by omega)), hidx,
        if_neg (fun hc => hcp hc.symm)]

/-- Witness for C7: width 8, size 2, deltas `[3, 4, 5]`; all prefix sums
stay below the sentinel 255. -/
theorem C7_witness :
    (1 : Nat) ≤ 2 ∧
    (∀ i, i ≤ ([3, 4, 5] : List Nat).length →
      (([3, 4, 5] : List Nat).take i).sum < kLock 8) ∧
    ((runReturns (cvInit 8 2) 0 [3, 4, 5]
      = some ((List.range ([3, 4, 5] : List Nat).length).map
          fun i => (([3, 4, 5] : List Nat).take i).sum)) ∧
    ∀ i, i < ([3, 4, 5] : List Nat).length →
      ∃ Vi, runState (cvInit 8 2) 0 (([3, 4, 5] : List Nat).take (i + 1))
          = some Vi ∧
        Vi.buffer.getD (i % 3) 0 = (([3, 4, 5] : List Nat).take (i + 1)).sum ∧
        Vi.buffer.getD ((i + 2) % 3) 0 = kLock 8 ∧
        kLock 8 = 2 ^ 8 - 1) :=
  ⟨by decide, by decide,
    C7_circular_vector 8 2 [3, 4, 5] (by decide) (by decide)⟩

/-! ## Claim theorems for isolated-node removal (C9) -/

theorem cgSetArrays_nodes (g : CompressedGraph) (ns : RestrictableArray Nat)
    (ws : RestrictableArray Int) : (cgSetArrays g ns ws).nodes = ns := rfl

theorem cgSetArrays_nodeWeights (g : CompressedGraph)
    (ns : RestrictableArray Nat) (ws : RestrictableArray Int) :
    (cgSetArrays g ns ws).nodeWeights = ws := rfl

theorem cgSetBuckets_nodes (g : CompressedGraph) (bs : List Nat) :
    (cgSetBuckets g bs).nodes = g.nodes := rfl

theorem cgSetBuckets_nodeWeights (g : CompressedGraph) (bs : List Nat) :
    (cgSetBuckets g bs).nodeWeights = g.nodeWeights := rfl

theorem cgSetBuckets_total (g : CompressedGraph) (bs : List Nat) :
    (cgSetBuckets g bs).totalNodeWeight = g.totalNodeWeight := rfl

theorem cgSetBuckets_max (g : CompressedGraph) (bs : List Nat) :
    (cgSetBuckets g bs).maxNodeWeight = g.maxNodeWeight := rfl

theorem cgSetBuckets_buckets (g : CompressedGraph) (bs : List Nat) :
    (cgSetBuckets g bs).buckets = bs := rfl

theorem updateTotal_nodes (g : CompressedGraph) :
    (updateTotalNodeWeight g).nodes = g.nodes := by
  unfold updateTotalNodeWeight
  split <;> rfl

theorem updateTotal_nodeWeights (g : CompressedGraph) :
    (updateTotalNodeWeight g).nodeWeights = g.nodeWeights := by
  unfold updateTotalNodeWeight
  split <;> rfl

theorem updateTotal_buckets (g : CompressedGraph) :
    (updateTotalNodeWeight g).buckets = g.buckets := by
  unfold updateTotalNodeWeight
  split <;> rfl

theorem updateTotal_total (g : CompressedGraph) :
    (updateTotalNodeWeight g).totalNodeWeight
      = if g.nodeWeights.size = 0 then (cgN g : Int)
        else sumIntList g.nodeWeights.view := by
  unfold updateTotalNodeWeight
  split <;> rfl

theorem updateTotal_max (g : CompressedGraph) :
    (updateTotalNodeWeight g).maxNodeWeight
      = if g.nodeWeights.size = 0 then 1
        else maxIntList g.nodeWeights.view := by
  unfold updateTotalNodeWeight
  split <;> rfl

theorem fixBucketsRemove_nodes (g : CompressedGraph) :
    (fixBucketsRemove g).nodes = g.nodes := by
  unfold fixBucketsRemove
  split <;> rfl

theorem fixBucketsRemove_nodeWeights (g : CompressedGraph) :
    (fixBucketsRemove g).nodeWeights = g.nodeWeights := by
  unfold fixBucketsRemove
  split <;> rfl

theorem fixBucketsRemove_buckets (g : CompressedGraph) :
    (fixBucketsRemove g).buckets = g.buckets := by
  unfold fixBucketsRemove
  split <;> rfl

theorem fixBucketsIntegrate_nodes (g : CompressedGraph) :
    (fixBucketsIntegrate g).nodes = g.nodes := by
  unfold fixBucketsIntegrate
  split <;> rfl

theorem fixBucketsIntegrate_total (g : CompressedGraph) :
    (fixBucketsIntegrate g).totalNodeWeight = g.totalNodeWeight := by
  unfold fixBucketsIntegrate
  split <;> rfl

theorem fixBucketsIntegrate_max (g : CompressedGraph) :
    (fixBucketsIntegrate g).maxNodeWeight = g.maxNodeWeight := by
  unfold fixBucketsIntegrate
  split <;> rfl

theorem fixBucketsIntegrate_buckets (g : CompressedGraph) :
    (fixBucketsIntegrate g).buckets = g.buckets := by
  unfold fixBucketsIntegrate
  split <;> rfl

theorem bucketsAdjust_roundtrip (k : Nat) :
    ∀ (bs : List Nat) (i : Nat),
      (∀ j, j < bs.length → 1 ≤ i + j → k ≤ bs.getD j 0) →
      bucketsAdjust (bucketsAdjust bs (fun x => x - k) i)
        (fun x => x + k) i = bs := by
  intro bs
  induction bs with
  | nil => intro i _; rfl
  | cons b bs ih =>
      intro i h
      have htail : ∀ j, j < bs.length → 1 ≤ (i + 1) + j →
          k ≤ bs.getD j 0 := by
        intro j hj hij
        exact h (j + 1) (by simp; omega) (by omega)
      by_cases hi : 1 ≤ i
      · have hb : k ≤ b := h 0 (by simp) (by omega)
        simp only [bucketsAdjust, if_pos hi]
        rw [ih (i + 1) htail]
        congr 1
        omega
      · simp only [bucketsAdjust, if_neg hi]
        rw [ih (i + 1) htail]

theorem bucketsAdjust_add_zero :
    ∀ (bs : List Nat) (i : Nat),
      bucketsAdjust bs (fun x => x + 0) i = bs := by
  intro bs
  induction bs with
  | nil => intro i; rfl
  | cons b bs ih =>
      intro i
      simp only [bucketsAdjust, ih]
      split <;> rfl

theorem view_unrestrict {α : Type} (A : RestrictableArray α) :
    A.unrestrict.view = A.full := by
  show List.take A.full.length A.full = A.full
  simp

theorem view_of_full {α : Type} (A : RestrictableArray α)
    (h : A.size = A.full.length) : A.view = A.full := by
  show List.take A.size A.full = A.full
  rw [h]
  simp

theorem integrate_char (g : CompressedGraph) :
    (integrateIsolatedNodes g).nodes = g.nodes.unrestrict ∧
    (integrateIsolatedNodes g).totalNodeWeight
      = (if g.nodeWeights.full.length = 0
          then ((g.nodes.full.length - 1 : Nat) : Int)
          else sumIntList g.nodeWeights.full) ∧
    (integrateIsolatedNodes g).maxNodeWeight
      = (if g.nodeWeights.full.length = 0 then 1
          else maxIntList g.nodeWeights.full) ∧
    (integrateIsolatedNodes g).buckets
      = bucketsAdjust g.buckets
          (fun x => x + (g.nodes.full.length - 1 - cgN g)) 0 := by
  unfold integrateIsolatedNodes
  have hsz : (g.nodeWeights.unrestrict).size = g.nodeWeights.full.length :=
    rfl
  have hcg : cgN (cgSetArrays g g.nodes.unrestrict g.nodeWeights.unrestrict)
      = g.nodes.full.length - 1 := rfl
  refine ⟨?_, ?_, ?_, ?_⟩
  · rw [fixBucketsIntegrate_nodes, cgSetBuckets_nodes, updateTotal_nodes,
      cgSetArrays_nodes]
  · rw [fixBucketsIntegrate_total, cgSetBuckets_total, updateTotal_total,
      cgSetArrays_nodeWeights, hsz, hcg, view_unrestrict]
  · rw [fixBucketsIntegrate_max, cgSetBuckets_max, updateTotal_max,
      cgSetArrays_nodeWeights, hsz, view_unrestrict]
  · rw [fixBucketsIntegrate_buckets, cgSetBuckets_buckets]

theorem remove_char (g : CompressedGraph) (k : Nat) (hk0 : k ≠ 0) :
    (removeIsolatedNodes g k).nodes = g.nodes.restrict (cgN g - k + 1) ∧
    (removeIsolatedNodes g k).nodeWeights.full = g.nodeWeights.full ∧
    (removeIsolatedNodes g k).buckets
      = bucketsAdjust g.buckets (fun x => x - k) 0 := by
  unfold removeIsolatedNodes
  rw [if_neg hk0]
  refine ⟨?_, ?_, ?_⟩
  · rw [fixBucketsRemove_nodes, cgSetBuckets_nodes, updateTotal_nodes,
      cgSetArrays_nodes]
  · rw [fixBucketsRemove_nodeWeights, cgSetBuckets_nodeWeights,
      updateTotal_nodeWeights, cgSetArrays_nodeWeights]
    split <;> rfl
  · rw [fixBucketsRemove_buckets, cgSetBuckets_buckets]

/-- Claim C9 (confirmed, strengthened): for a sorted compressed graph in an
unrestricted state with consistent cached weights, calling
`remove_isolated_nodes(k)` followed by `integrate_isolated_nodes()`
restores the logical node count `n()`, the total node weight, the maximum
node weight, and every degree-bucket prefix sum.  The claim's hypothesis
that the trailing `k` nodes are isolated enters as `k ≤ n` together with
`k ≤ _buckets[j]` for every `j ≥ 1` (prefix sums count the isolated bucket
first, so `k` trailing isolated nodes make every prefix sum from index 1 at
least `k`, which also rules out unsigned underflow in the bucket loop). -/
theorem C9_isolated_roundtrip (g : CompressedGraph) (k : Nat)
    (hsorted : g.sorted = true)
    (hn1 : 1 ≤ g.nodes.size)
    (hk : k ≤ cgN g)
    (hu1 : g.nodes.size = g.nodes.full.length)
    (hu2 : g.nodeWeights.size = g.nodeWeights.full.length)
    (htot : g.totalNodeWeight
      = if g.nodeWeights.size = 0 then (cgN g : Int)
        else sumIntList g.nodeWeights.view)
    (hmax : g.maxNodeWeight
      = if g.nodeWeights.size = 0 then 1
        else maxIntList g.nodeWeights.view)
    (hbucket : ∀ j, j < g.buckets.length → 1 ≤ j →
      k ≤ g.buckets.getD j 0) :
    cgN (integrateIsolatedNodes (removeIsolatedNodes g k)) = cgN g ∧
    (integrateIsolatedNodes (removeIsolatedNodes g k)).totalNodeWeight
      = g.totalNodeWeight ∧
    (integrateIsolatedNodes (removeIsolatedNodes g k)).maxNodeWeight
      = g.maxNodeWeight ∧
    (integrateIsolatedNodes (removeIsolatedNodes g k)).buckets
      = g.buckets := by
  by_cases hk0 : k = 0
  · subst hk0
    have hr : removeIsolatedNodes g 0 = g := by
      unfold removeIsolatedNodes
      rw [if_pos rfl]
    rw [hr]
    obtain ⟨hIn, hIt, hIm, hIb⟩ := integrate_char g
    have hiso : g.nodes.full.length - 1 - cgN g = 0 := by
      unfold cgN
      omega
    refine ⟨?_, ?_, ?_, ?_⟩
    · unfold cgN
      rw [hIn]
      show g.nodes.full.length - 1 = g.nodes.size - 1
      omega
    · rw [hIt, htot]
      by_cases hw0 : g.nodeWeights.size = 0
      · rw [if_pos (by omega), if_pos hw0]
        congr 1
        unfold cgN
        omega
      · rw [if_neg (by omega), if_neg hw0, view_of_full _ hu2]
    · rw [hIm, hmax]
      by_cases hw0 : g.nodeWeights.size = 0
      · rw [if_pos (by omega), if_pos hw0]
      · rw [if_neg (by omega), if_neg hw0, view_of_full _ hu2]
    · rw [hIb]
      simp only [hiso]
      exact bucketsAdjust_add_zero g.buckets 0
  · obtain ⟨hRn, hRw, hRb⟩ := remove_char g k hk0
    have hRfull : (removeIsolatedNodes g k).nodes.full = g.nodes.full := by
      rw [hRn]
      rfl
    have hRcg : cgN (removeIsolatedNodes g k) = cgN g - k := by
      unfold cgN
      rw [hRn]
      show cgN g - k + 1 - 1 = cgN g - k
      omega
    obtain ⟨hIn, hIt, hIm, hIb⟩ := integrate_char (removeIsolatedNodes g k)
    have hk' : k ≤ g.nodes.size - 1 := hk
    have hiso : (removeIsolatedNodes g k).nodes.full.length - 1
        - cgN (removeIsolatedNodes g k) = k := by
      rw [hRfull, hRcg]
      have h2 : cgN g = g.nodes.size - 1 := rfl
      rw [h2]
      omega
    have hlenfull : (removeIsolatedNodes g k).nodes.full.length
        = g.nodes.full.length := by
      rw [hRfull]
    have hwfull : (removeIsolatedNodes g k).nodeWeights.full.length
        = g.nodeWeights.full.length := by
      rw [hRw]
    refine ⟨?_, ?_, ?_, ?_⟩
    · unfold cgN
      rw [hIn]
      show (removeIsolatedNodes g k).nodes.full.length - 1
        = g.nodes.size - 1
      rw [hlenfull]
      omega
    · rw [hIt, htot, hRw]
      by_cases hw0 : g.nodeWeights.size = 0
      · rw [if_pos (by omega), if_pos hw0, hlenfull]
        congr 1
        unfold cgN
        omega
      · rw [if_neg (by omega), if_neg hw0, view_of_full _ hu2]
    · rw [hIm, hmax, hRw]
      by_cases hw0 : g.nodeWeights.size = 0
      · rw [if_pos (by omega), if_pos hw0]
      · rw [if_neg (by omega), if_neg hw0, view_of_full _ hu2]
    · rw [hIb]
      simp only [hiso, hRb]
      exact bucketsAdjust_roundtrip k g.buckets 0
        (fun j hj hij => hbucket j hj (by omega))

/-- Witness for C9: a sorted 3-node graph ([5, 7] node weights plus one
isolated node of weight 2 — weights [5, 7, 2]) with one trailing isolated
node, `k = 1`. -/
theorem C9_witness :
    (cgWitnessGraph.sorted = true ∧ 1 ≤ cgWitnessGraph.nodes.size ∧
      1 ≤ cgN cgWitnessGraph) ∧
    (cgN (integrateIsolatedNodes (removeIsolatedNodes cgWitnessGraph 1))
        = cgN cgWitnessGraph ∧
      (integrateIsolatedNodes
        (removeIsolatedNodes cgWitnessGraph 1)).totalNodeWeight
        = cgWitnessGraph.totalNodeWeight ∧
      (integrateIsolatedNodes
        (removeIsolatedNodes cgWitnessGraph 1)).maxNodeWeight
        = cgWitnessGraph.maxNodeWeight ∧
      (integrateIsolatedNodes (removeIsolatedNodes cgWitnessGraph 1)).buckets
        = cgWitnessGraph.buckets) :=
  ⟨⟨by decide, by decide, by decide⟩,
    C9_isolated_roundtrip cgWitnessGraph 1 (by decide) (by decide)
      (by decide) (by decide) (by decide) (by decide) (by decide)
      (by decide)⟩

/-! ## Claim theorems for the move-set builder (C10) -/

theorem heapPeek_mem : ∀ l : List (Nat × Int), l ≠ [] → heapPeek l ∈ l := by
  intro l
  induction l with
  | nil => intro h; exact absurd rfl h
  | cons x xs ih =>
      intro _
      cases xs with
      | nil => show heapPeek [x] ∈ [x]; simp [heapPeek]
      | cons y ys =>
          show (if (heapPeek (y :: ys)).2 ≤ x.2 then x
            else heapPeek (y :: ys)) ∈ x :: y :: ys
          split
          · simp
          · exact List.mem_cons_of_mem x (ih (by simp))

theorem heapErase_mem :
    ∀ (l : List (Nat × Int)) (v : Nat) (e : Nat × Int),
      e ∈ heapErase l v → e ∈ l := by
  intro l
  induction l with
  | nil => intro v e h; exact absurd h (by simp [heapErase])
  | cons x xs ih =>
      intro v e h
      unfold heapErase at h
      by_cases hx : x.1 = v
      · rw [if_pos hx] at h
        exact List.mem_cons_of_mem x h
      · rw [if_neg hx] at h
        rcases List.mem_cons.mp h with he | he
        · exact he ▸ List.mem_cons_self x xs
        · exact List.mem_cons_of_mem x (ih v e he)

theorem heapSetKey_mem (l : List (Nat × Int)) (v : Nat) (knew : Int)
    (e : Nat × Int) (h : e ∈ heapSetKey l v knew) :
    e = (v, knew) ∨ e ∈ l := by
  unfold heapSetKey at h
  rcases List.mem_map.mp h with ⟨a, ha, he⟩
  by_cases h1 : a.1 = v
  · rw [if_pos h1] at he
    exact Or.inl he.symm
  · rw [if_neg h1] at he
    exact Or.inr (he ▸ ha)

theorem addConnStep_fields (ctx : BalancerCtx) (s : MoveSetBuilderState)
    (q : Nat × Int) :
    (addConnStep ctx s q).nodeToMoveSet = s.nodeToMoveSet ∧
    (addConnStep ctx s q).frontier = s.frontier ∧
    (addConnStep ctx s q).curMoveSet = s.curMoveSet ∧
    (addConnStep ctx s q).curWeight = s.curWeight := by
  unfold addConnStep
  split_ifs <;> exact ⟨rfl, rfl, rfl, rfl⟩

theorem addConnFold_fields (ctx : BalancerCtx) :
    ∀ (L : List (Nat × Int)) (s : MoveSetBuilderState),
      (L.foldl (addConnStep ctx) s).nodeToMoveSet = s.nodeToMoveSet ∧
      (L.foldl (addConnStep ctx) s).frontier = s.frontier ∧
      (L.foldl (addConnStep ctx) s).curMoveSet = s.curMoveSet ∧
      (L.foldl (addConnStep ctx) s).curWeight = s.curWeight := by
  intro L
  induction L with
  | nil => intro s; exact ⟨rfl, rfl, rfl, rfl⟩
  | cons a t ih =>
      intro s
      obtain ⟨h1, h2, h3, h4⟩ := ih (addConnStep ctx s a)
      obtain ⟨g1, g2, g3, g4⟩ := addConnStep_fields ctx s a
      exact ⟨h1.trans g1, h2.trans g2, h3.trans g3, h4.trans g4⟩

theorem addConnFold_ntms (ctx : BalancerCtx) (L : List (Nat × Int))
    (s : MoveSetBuilderState) :
    (L.foldl (addConnStep ctx) s).nodeToMoveSet = s.nodeToMoveSet :=
  (addConnFold_fields ctx L s).1

theorem addConnFold_front (ctx : BalancerCtx) (L : List (Nat × Int))
    (s : MoveSetBuilderState) :
    (L.foldl (addConnStep ctx) s).frontier = s.frontier :=
  (addConnFold_fields ctx L s).2.1

theorem addConnFold_cms (ctx : BalancerCtx) (L : List (Nat × Int))
    (s : MoveSetBuilderState) :
    (L.foldl (addConnStep ctx) s).curMoveSet = s.curMoveSet :=
  (addConnFold_fields ctx L s).2.2.1

theorem addConnFold_cw (ctx : BalancerCtx) (L : List (Nat × Int))
    (s : MoveSetBuilderState) :
    (L.foldl (addConnStep ctx) s).curWeight = s.curWeight :=
  (addConnFold_fields ctx L s).2.2.2

theorem addToMoveSet_char (ctx : BalancerCtx) (st : MoveSetBuilderState)
    (u : Nat) :
    (addToMoveSet ctx st u).nodeToMoveSet
      = Function.update st.nodeToMoveSet u (some st.curMoveSet) ∧
    (addToMoveSet ctx st u).frontier = st.frontier ∧
    (addToMoveSet ctx st u).curMoveSet = st.curMoveSet ∧
    (addToMoveSet ctx st u).curWeight = st.curWeight + ctx.nodeWeight u := by
  unfold addToMoveSet
  dsimp only
  by_cases hc : st.curBlock = none
  · rw [if_pos hc]
    refine ⟨?_, ?_, ?_, ?_⟩ <;>
      (split <;>
        simp only [addConnFold_ntms, addConnFold_front, addConnFold_cms,
          addConnFold_cw])
  · rw [if_neg hc]
    refine ⟨?_, ?_, ?_, ?_⟩ <;>
      (split <;>
        simp only [addConnFold_ntms, addConnFold_front, addConnFold_cms,
          addConnFold_cw])

theorem growPushStep_fields (ctx : BalancerCtx) (bu : Nat)
    (s : MoveSetBuilderState) (q : Nat × Int) :
    (growPushStep ctx bu s q).nodeToMoveSet = s.nodeToMoveSet ∧
    (growPushStep ctx bu s q).curMoveSet = s.curMoveSet ∧
    (growPushStep ctx bu s q).curWeight = s.curWeight := by
  unfold growPushStep
  split_ifs <;> exact ⟨rfl, rfl, rfl⟩

theorem growPushFold_fields (ctx : BalancerCtx) (bu : Nat) :
    ∀ (L : List (Nat × Int)) (s : MoveSetBuilderState),
      ((L.foldl (growPushStep ctx bu) s).nodeToMoveSet = s.nodeToMoveSet ∧
       (L.foldl (growPushStep ctx bu) s).curMoveSet = s.curMoveSet ∧
       (L.foldl (growPushStep ctx bu) s).curWeight = s.curWeight) := by
  intro L
  induction L with
  | nil => intro s; exact ⟨rfl, rfl, rfl⟩
  | cons a t ih =>
      intro s
      obtain ⟨h1, h2, h3⟩ := ih (growPushStep ctx bu s a)
      obtain ⟨g1, g2, g3⟩ := growPushStep_fields ctx bu s a
      exact ⟨h1.trans g1, h2.trans g2, h3.trans g3⟩

theorem growPushStep_frontier (ctx : BalancerCtx) (bu : Nat)
    (s : MoveSetBuilderState) (q : Nat × Int)
    (h : ∀ e ∈ s.frontier, ctx.p e.1 = bu) :
    ∀ e ∈ (growPushStep ctx bu s q).frontier, ctx.p e.1 = bu := by
  unfold growPushStep
  by_cases h1 : ctx.p q.1 = bu
  · rw [if_pos h1]
    by_cases h2 : heapContains s.frontier q.1
    · rw [if_pos h2]
      intro e he
      rcases heapSetKey_mem _ _ _ e he with he' | he'
      · rw [he']
        exact h1
      · exact h e he'
    · rw [if_neg h2]
      intro e he
      rcases List.mem_append.mp he with he' | he'
      · exact h e he'
      · rw [List.mem_singleton.mp he']
        exact h1
  · rw [if_neg h1]
    exact h

theorem growPushFold_frontier (ctx : BalancerCtx) (bu : Nat) :
    ∀ (L : List (Nat × Int)) (s : MoveSetBuilderState),
      (∀ e ∈ s.frontier, ctx.p e.1 = bu) →
      ∀ e ∈ (L.foldl (growPushStep ctx bu) s).frontier, ctx.p e.1 = bu := by
  intro L
  induction L with
  | nil => intro s h; exact h
  | cons a t ih =>
      intro s h
      exact ih (growPushStep ctx bu s a) (growPushStep_frontier ctx bu s a h)

theorem growLoop_stuck (ctx : BalancerCtx) (maxW : Int) (fuel : Nat)
    (st : MoveSetBuilderState)
    (h : ¬(st.frontier ≠ [] ∧ st.curWeight < maxW)) :
    growLoop ctx maxW fuel st = st := by
  cases fuel with
  | zero => rfl
  | succ n =>
      show (if st.frontier ≠ [] ∧ st.curWeight < maxW then _ else st) = st
      rw [if_neg h]

theorem growLoop_succ (ctx : BalancerCtx) (maxW : Int) (fuel : Nat)
    (st : MoveSetBuilderState)
    (h : st.frontier ≠ [] ∧ st.curWeight < maxW) :
    growLoop ctx maxW (fuel + 1) st
      = growLoop ctx maxW fuel
          ((ctx.G.nbrs (heapPeek st.frontier).1).foldl
            (growPushStep ctx (ctx.p (heapPeek st.frontier).1))
            (addToMoveSet ctx
              { st with frontier :=
                  heapErase st.frontier (heapPeek st.frontier).1 }
              (heapPeek st.frontier).1)) := by
  show (if st.frontier ≠ [] ∧ st.curWeight < maxW then _ else st) = _
  rw [if_pos h]

theorem growLoop_inv (ctx : BalancerCtx) (maxW : Int) (b ms0 : Nat)
    (M0 : Nat → Option Nat) :
    ∀ (fuel : Nat) (st : MoveSetBuilderState),
      (∀ e ∈ st.frontier, ctx.p e.1 = b) →
      st.curMoveSet = ms0 →
      (∀ u s, st.nodeToMoveSet u = some s →
        M0 u = some s ∨ (s = ms0 ∧ ctx.p u = b)) →
      (∀ e ∈ (growLoop ctx maxW fuel st).frontier, ctx.p e.1 = b) ∧
      (growLoop ctx maxW fuel st).curMoveSet = ms0 ∧
      (∀ u s, (growLoop ctx maxW fuel st).nodeToMoveSet u = some s →
        M0 u = some s ∨ (s = ms0 ∧ ctx.p u = b)) := by
  intro fuel
  induction fuel with
  | zero => intro st h1 h2 h3; exact ⟨h1, h2, h3⟩
  | succ n ih =>
      intro st h1 h2 h3
      by_cases hc : st.frontier ≠ [] ∧ st.curWeight < maxW
      · rw [growLoop_succ ctx maxW n st hc]
        have hu : ctx.p (heapPeek st.frontier).1 = b :=
          h1 (heapPeek st.frontier) (heapPeek_mem st.frontier hc.1)
        obtain ⟨ha1, ha2, ha3, _⟩ := addToMoveSet_char ctx
          { st with frontier := heapErase st.frontier (heapPeek st.frontier).1 }
          (heapPeek st.frontier).1
        obtain ⟨hf1, hf2, _⟩ := growPushFold_fields ctx
          (ctx.p (heapPeek st.frontier).1)
          (ctx.G.nbrs (heapPeek st.frontier).1)
          (addToMoveSet ctx
            { st with frontier :=
                heapErase st.frontier (heapPeek st.frontier).1 }
            (heapPeek st.frontier).1)
        apply ih
        · rw [hu]
          apply growPushFold_frontier
          rw [ha2]
          intro e he
          exact h1 e (heapErase_mem _ _ e he)
        · rw [hf2, ha3]
          exact h2
        · intro x s hx
          rw [hf1, ha1] at hx
          by_cases hxu : x = (heapPeek st.frontier).1
          · subst hxu
            rw [Function.update_same] at hx
            right
            refine ⟨?_, hu⟩
            have : some st.curMoveSet = some s := hx
            rw [h2] at this
            exact (Option.some_inj.mp this).symm
          · rw [Function.update_noteq hxu] at hx
            exact h3 x s hx
      · rw [growLoop_stuck ctx maxW (n + 1) st hc]
        exact ⟨h1, h2, h3⟩

theorem growLoop_exit (ctx : BalancerCtx) (maxW : Int)
    (hw : ∀ u, 1 ≤ ctx.nodeWeight u) :
    ∀ (fuel : Nat) (st : MoveSetBuilderState),
      maxW ≤ st.curWeight + fuel →
      (((growLoop ctx maxW fuel st).frontier = [] ∨
        maxW ≤ (growLoop ctx maxW fuel st).curWeight) ∧
       st.curWeight ≤ (growLoop ctx maxW fuel st).curWeight) := by
  intro fuel
  induction fuel with
  | zero =>
      intro st hb
      constructor
      · right
        simpa using hb
      · exact le_refl _
  | succ n ih =>
      intro st hb
      by_cases hc : st.frontier ≠ [] ∧ st.curWeight < maxW
      · rw [growLoop_succ ctx maxW n st hc]
        obtain ⟨_, _, _, ha4⟩ := addToMoveSet_char ctx
          { st with frontier := heapErase st.frontier (heapPeek st.frontier).1 }
          (heapPeek st.frontier).1
        obtain ⟨_, _, hf3⟩ := growPushFold_fields ctx
          (ctx.p (heapPeek st.frontier).1)
          (ctx.G.nbrs (heapPeek st.frontier).1)
          (addToMoveSet ctx
            { st with frontier :=
                heapErase st.frontier (heapPeek st.frontier).1 }
            (heapPeek st.frontier).1)
        have hwu := hw (heapPeek st.frontier).1
        have hstep : (((ctx.G.nbrs (heapPeek st.frontier).1).foldl
            (growPushStep ctx (ctx.p (heapPeek st.frontier).1))
            (addToMoveSet ctx
              { st with frontier :=
                  heapErase st.frontier (heapPeek st.frontier).1 }
              (heapPeek st.frontier).1))).curWeight
            = st.curWeight + ctx.nodeWeight (heapPeek st.frontier).1 := by
          rw [hf3, ha4]
        obtain ⟨hx1, hx2⟩ := ih _ (by rw [hstep]; push_cast; omega)
        refine ⟨hx1, le_trans ?_ hx2⟩
        rw [hstep]
        omega
      · rw [growLoop_stuck ctx maxW (n + 1) st hc]
        constructor
        · rcases not_and_or.mp hc with h | h
          · left
            exact not_not.mp h
          · right
            omega
        · exact le_refl _

theorem truncLoop_some (arr : Nat → Nat) :
    ∀ (cnt : Nat) (m : Nat → Option Nat) (pos u s : Nat),
      truncLoop arr m pos cnt u = some s → m u = some s := by
  intro cnt
  induction cnt with
  | zero => intro m pos u s h; exact h
  | succ n ih =>
      intro m pos u s h
      have := ih (Function.update m (arr pos) none) (pos + 1) u s h
      by_cases hu : u = arr pos
      · rw [hu, Function.update_same] at this
        exact absurd this (by simp)
      · rw [Function.update_noteq hu] at this
        exact this

theorem finishMoveSet_char (st : MoveSetBuilderState) :
    (∀ u s, (finishMoveSet st).nodeToMoveSet u = some s →
      st.nodeToMoveSet u = some s) ∧
    (finishMoveSet st).curMoveSet = st.curMoveSet + 1 ∧
    (finishMoveSet st).frontier = st.frontier ∧
    (finishMoveSet st).curWeight = st.curWeight := by
  refine ⟨?_, rfl, rfl, rfl⟩
  intro u s h
  exact truncLoop_some st.moveSets _ st.nodeToMoveSet _ u s h

theorem growMoveSet_prop (ctx : BalancerCtx) (fuel seed : Nat) (maxW : Int)
    (st : MoveSetBuilderState)
    (hw : ∀ u, 1 ≤ ctx.nodeWeight u)
    (hfuel : maxW ≤ st.curWeight + fuel)
    (hentry : st.frontier = [] ∨ maxW ≤ st.curWeight) :
    (∀ u s, (growMoveSet ctx fuel seed maxW st).nodeToMoveSet u = some s →
      st.nodeToMoveSet u = some s ∨
        (s = st.curMoveSet ∧ ctx.p u = ctx.p seed)) ∧
    (growMoveSet ctx fuel seed maxW st).curMoveSet = st.curMoveSet + 1 ∧
    ((growMoveSet ctx fuel seed maxW st).frontier = [] ∨
      maxW ≤ (growMoveSet ctx fuel seed maxW st).curWeight) ∧
    st.curWeight ≤ (growMoveSet ctx fuel seed maxW st).curWeight := by
  unfold growMoveSet
  rcases hentry with he | he
  · obtain ⟨hl1, hl2, hl3⟩ := growLoop_inv ctx maxW (ctx.p seed)
      st.curMoveSet st.nodeToMoveSet fuel
      { st with frontier := st.frontier ++ [(seed, 0)] }
      (by
        rw [he]
        intro e he'
        simp only [List.nil_append, List.mem_singleton] at he'
        rw [he'])
      rfl (fun u s h => Or.inl h)
    obtain ⟨he1, he2⟩ := growLoop_exit ctx maxW hw fuel
      { st with frontier := st.frontier ++ [(seed, 0)] } hfuel
    obtain ⟨hc1, hc2, hc3, hc4⟩ := finishMoveSet_char
      (growLoop ctx maxW fuel
        { st with frontier := st.frontier ++ [(seed, 0)] })
    refine ⟨?_, ?_, ?_, ?_⟩
    · intro u s h
      exact hl3 u s (hc1 u s h)
    · rw [hc2, hl2]
    · rw [hc3, hc4]
      exact he1
    · rw [hc4]
      exact he2
  · have hstuck := growLoop_stuck ctx maxW fuel
      { st with frontier := st.frontier ++ [(seed, 0)] }
      (by push_neg; exact fun _ => he)
    rw [hstuck]
    obtain ⟨hc1, hc2, hc3, hc4⟩ := finishMoveSet_char
      { st with frontier := st.frontier ++ [(seed, 0)] }
    refine ⟨?_, ?_, ?_, ?_⟩
    · intro u s h
      exact Or.inl (hc1 u s h)
    · rw [hc2]
    · right
      rw [hc4]
      exact he
    · rw [hc4]

theorem msBuildFold_inv (ctx : BalancerCtx) (fuel : Nat) (maxW : Int)
    (hw : ∀ u, 1 ≤ ctx.nodeWeight u) (hfuel : maxW.toNat ≤ fuel) :
    ∀ (ns : List Nat) (t : MoveSetBuilderState × List (Nat × Nat)),
      (∀ u s, t.1.nodeToMoveSet u = some s →
        ∃ seed, (s, seed) ∈ t.2 ∧ ctx.p u = ctx.p seed) →
      (t.1.frontier = [] ∨ maxW ≤ t.1.curWeight) →
      0 ≤ t.1.curWeight →
      (∀ u s, (ns.foldl
          (fun s u =>
            if ctx.maxBlockWeight (ctx.p u) < ctx.blockWeight (ctx.p u) ∧
                s.1.nodeToMoveSet u = none then
              (growMoveSet ctx fuel u maxW s.1,
                s.2 ++ [(s.1.curMoveSet, u)])
            else s) t).1.nodeToMoveSet u = some s →
        ∃ seed, (s, seed) ∈ (ns.foldl
          (fun s u =>
            if ctx.maxBlockWeight (ctx.p u) < ctx.blockWeight (ctx.p u) ∧
                s.1.nodeToMoveSet u = none then
              (growMoveSet ctx fuel u maxW s.1,
                s.2 ++ [(s.1.curMoveSet, u)])
            else s) t).2 ∧ ctx.p u = ctx.p seed) := by
  intro ns
  induction ns with
  | nil => intro t h1 _ _; exact h1
  | cons a tl ih =>
      intro t h1 h2 h3
      rw [List.foldl_cons]
      by_cases hcond : ctx.maxBlockWeight (ctx.p a) < ctx.blockWeight (ctx.p a) ∧
          t.1.nodeToMoveSet a = none
      · rw [if_pos hcond]
        have hfstep : maxW ≤ t.1.curWeight + fuel := by omega
        obtain ⟨hp1, _, hp3, hp4⟩ :=
          growMoveSet_prop ctx fuel a maxW t.1 hw hfstep h2
        apply ih
        · intro u sx hx
          rcases hp1 u sx hx with hold | ⟨hsx, hpu⟩
          · rcases h1 u sx hold with ⟨seed, hmem, hps⟩
            exact ⟨seed, List.mem_append_left _ hmem, hps⟩
          · exact ⟨a, by simp [hsx], hpu⟩
        · exact hp3
        · exact le_trans h3 hp4
      · rw [if_neg hcond]
        exact ih t h1 h2 h3

/-- Claim C10 (confirmed): every move set produced by
`build_greedy_move_sets` consists only of nodes whose current block equals
the block of the set's overloaded seed node — set growth never crosses a
block boundary.  Hypotheses: node weights are at least 1 and the unrolling
bound covers `max_move_set_weight` (so the source's while loop runs to its
real exit condition). -/
theorem C10_move_sets_block_pure (ctx : BalancerCtx) (fuel : Nat)
    (maxW : Int) (hw : ∀ u, 1 ≤ ctx.nodeWeight u)
    (hfuel : maxW.toNat ≤ fuel) :
    ∀ u s, (msBuild ctx fuel maxW).1.nodeToMoveSet u = some s →
      ∃ seed, (s, seed) ∈ (msBuild ctx fuel maxW).2 ∧
        ctx.p u = ctx.p seed := by
  unfold msBuild
  apply msBuildFold_inv ctx fuel maxW hw hfuel
  · intro u s h
    exact absurd h (by simp [msInitState])
  · left
    rfl
  · exact le_refl 0

/-- Witness for C10: the two-node overloaded instance; node 0 ends up in
move set 0 and shares its block with that set's seed. -/
theorem C10_witness :
    (∀ u, 1 ≤ msWitnessCtx.nodeWeight u) ∧
    ((5 : Int).toNat ≤ 8) ∧
    ((msBuild msWitnessCtx 8 5).1.nodeToMoveSet 0 = some 0) ∧
    (∃ seed, (0, seed) ∈ (msBuild msWitnessCtx 8 5).2 ∧
      msWitnessCtx.p 0 = msWitnessCtx.p seed) :=
  ⟨fun _ => le_refl 1, by decide, by decide,
    C10_move_sets_block_pure msWitnessCtx 8 5 (fun _ => le_refl 1)
      (by decide) 0 0 (by decide)⟩

/-! ## JET refiner: the refine loop (C1, C6) -/

theorem snapUpdate_cut_min (G : Graph) (s : Snapshot) (p : Partition) :
    (snapUpdate G s p).cut = min s.cut (edgeCut G p) := by
  unfold snapUpdate
  split
  · next h => exact (min_eq_right h.le).symm
  · next h => exact (min_eq_left (not_lt.mp h)).symm

theorem snapUpdate_cut_blocks (G : Graph) (s : Snapshot) (p : Partition)
    (h : s.cut = edgeCut G s.blocks) :
    (snapUpdate G s p).cut = edgeCut G (snapUpdate G s p).blocks := by
  unfold snapUpdate
  split
  · rfl
  · exact h

theorem foldlMin_concat (l : List Int) (a x : Int) :
    (l ++ [x]).foldl min a = min (l.foldl min a) x := by
  rw [List.foldl_append]
  rfl

theorem jetGetD_concat_self :
    ∀ (l : List (Int × Nat)) (x : Int × Nat),
      (l ++ [x]).getD l.length (0, 0) = x := by
  intro l x
  induction l with
  | nil => rfl
  | cons a t ih =>
      simp only [List.cons_append, List.length_cons, List.getD_cons_succ]
      exact ih

theorem jetGetD_concat_lt :
    ∀ (l : List (Int × Nat)) (x : Int × Nat) (j : Nat), j < l.length →
      (l ++ [x]).getD j (0, 0) = l.getD j (0, 0) := by
  intro l
  induction l with
  | nil => intro x j h; exact absurd h (Nat.not_lt_zero j)
  | cons a t ih =>
      intro x j h
      cases j with
      | zero => rfl
      | succ j =>
          simp only [List.cons_append, List.getD_cons_succ]
          exact ih x j (by simpa using h)

theorem effLimit_pos (x : Nat) : 1 ≤ effLimit x := by
  unfold effLimit
  split <;> omega

theorem jetLoop_succ (G : Graph) (cfg : JetConfig) (bal : Partition → Partition)
    (fuel : Nat) (ls : JetLoopState) :
    jetLoop G cfg bal (fuel + 1) ls =
      if (jetPassStep G cfg bal ls).iter < effLimit cfg.numIterations ∧
          (jetPassStep G cfg bal ls).fruitless <
            effLimit cfg.numFruitlessIterations then
        jetLoop G cfg bal fuel (jetPassStep G cfg bal ls)
      else jetPassStep G cfg bal ls := rfl

theorem jetLoop_spec (G : Graph) (cfg : JetConfig) (bal : Partition → Partition)
    (ic : Int) :
    ∀ (fuel : Nat) (ls : JetLoopState),
      ls.iter = ls.records.length →
      ls.iter < effLimit cfg.numIterations →
      fuel + ls.iter = effLimit cfg.numIterations →
      (∀ j, j < ls.records.length →
        j + 1 < effLimit cfg.numIterations ∧
        (ls.records.getD j (0, 0)).2 < effLimit cfg.numFruitlessIterations) →
      ls.snap.cut = edgeCut G ls.snap.blocks →
      ls.snap.cut ≤ ls.bestCut →
      ls.snap.cut = (ls.records.map Prod.fst).foldl min ic →
      ((jetLoop G cfg bal fuel ls).iter =
          (jetLoop G cfg bal fuel ls).records.length ∧
        ls.records.length < (jetLoop G cfg bal fuel ls).records.length ∧
        (effLimit cfg.numIterations ≤ (jetLoop G cfg bal fuel ls).iter ∨
          effLimit cfg.numFruitlessIterations ≤
            ((jetLoop G cfg bal fuel ls).records.getD
              ((jetLoop G cfg bal fuel ls).records.length - 1) (0, 0)).2) ∧
        (∀ j, j + 1 < (jetLoop G cfg bal fuel ls).records.length →
          j + 1 < effLimit cfg.numIterations ∧
          ((jetLoop G cfg bal fuel ls).records.getD j (0, 0)).2 <
            effLimit cfg.numFruitlessIterations) ∧
        (jetLoop G cfg bal fuel ls).snap.cut =
          edgeCut G (jetLoop G cfg bal fuel ls).snap.blocks ∧
        (jetLoop G cfg bal fuel ls).snap.cut ≤
          (jetLoop G cfg bal fuel ls).bestCut ∧
        (jetLoop G cfg bal fuel ls).snap.cut =
          ((jetLoop G cfg bal fuel ls).records.map Prod.fst).foldl min ic) := by
  intro fuel
  induction fuel with
  | zero =>
      intro ls h1 h2 h3 _ _ _ _
      exact absurd h2 (by omega)
  | succ fuel ih =>
      intro ls h1 h2 h3 hcont hseq hsle hmin
      have hni : (jetPassStep G cfg bal ls).iter = ls.iter + 1 := rfl
      have hnr : (jetPassStep G cfg bal ls).records =
          ls.records ++ [(jetStepCut G cfg bal ls,
            if jetStepImproved G cfg bal ls then 0 else ls.fruitless + 1)] := rfl
      have hnf : (jetPassStep G cfg bal ls).fruitless =
          (if jetStepImproved G cfg bal ls then 0 else ls.fruitless + 1) := rfl
      have hns : (jetPassStep G cfg bal ls).snap =
          snapUpdate G ls.snap (jetStepBlock G cfg bal ls) := rfl
      have hnb : (jetPassStep G cfg bal ls).bestCut =
          (if jetStepImproved G cfg bal ls then jetStepCut G cfg bal ls
           else ls.bestCut) := rfl
      have hlen : (jetPassStep G cfg bal ls).records.length =
          ls.records.length + 1 := by
        rw [hnr]; simp
      have hA1 : (jetPassStep G cfg bal ls).iter =
          (jetPassStep G cfg bal ls).records.length := by
        rw [hni, hlen, h1]
      have hA2 : (jetPassStep G cfg bal ls).snap.cut =
          edgeCut G (jetPassStep G cfg bal ls).snap.blocks := by
        rw [hns]
        exact snapUpdate_cut_blocks G ls.snap _ hseq
      have hA3 : (jetPassStep G cfg bal ls).snap.cut =
          (((jetPassStep G cfg bal ls).records.map Prod.fst).foldl min ic) := by
        rw [hns, snapUpdate_cut_min, hnr, List.map_append]
        simp only [List.map_cons, List.map_nil]
        rw [foldlMin_concat, ← hmin]
        rfl
      have hA4 : (jetPassStep G cfg bal ls).snap.cut ≤
          (jetPassStep G cfg bal ls).bestCut := by
        rw [hns, hnb, snapUpdate_cut_min]
        by_cases him : jetStepImproved G cfg bal ls
        · rw [if_pos him]
          exact min_le_right _ _
        · rw [if_neg him]
          exact le_trans (min_le_left _ _) hsle
      have hA5 : ((jetPassStep G cfg bal ls).records.getD
          ((jetPassStep G cfg bal ls).records.length - 1) (0, 0)).2 =
          (jetPassStep G cfg bal ls).fruitless := by
        rw [hnf, hlen, Nat.add_sub_cancel, hnr, jetGetD_concat_self]
      by_cases hC : (jetPassStep G cfg bal ls).iter < effLimit cfg.numIterations ∧
          (jetPassStep G cfg bal ls).fruitless < effLimit cfg.numFruitlessIterations
      · rw [jetLoop_succ, if_pos hC]
        have hc3 : fuel + (jetPassStep G cfg bal ls).iter =
            effLimit cfg.numIterations := by
          rw [hni]; omega
        have hcont' : ∀ j, j < (jetPassStep G cfg bal ls).records.length →
            j + 1 < effLimit cfg.numIterations ∧
            ((jetPassStep G cfg bal ls).records.getD j (0, 0)).2 <
              effLimit cfg.numFruitlessIterations := by
          intro j hj
          rw [hlen] at hj
          rcases Nat.lt_succ_iff_lt_or_eq.mp hj with hlt | heq
          · rw [hnr, jetGetD_concat_lt _ _ _ hlt]
            exact hcont j hlt
          · subst heq
            constructor
            · have hit := hC.1
              rw [hni, h1] at hit
              omega
            · rw [hnr, jetGetD_concat_self]
              have hfr := hC.2
              rw [hnf] at hfr
              exact hfr
        obtain ⟨c1, c2, c3, c4, c5, c6, c7⟩ :=
          ih (jetPassStep G cfg bal ls) hA1 hC.1 hc3 hcont' hA2 hA4 hA3
        refine ⟨c1, ?_, c3, c4, c5, c6, c7⟩
        rw [hlen] at c2
        omega
      · rw [jetLoop_succ, if_neg hC]
        refine ⟨hA1, ?_, ?_, ?_, hA2, hA4, hA3⟩
        · rw [hlen]; omega
        · by_cases hI : (jetPassStep G cfg bal ls).iter <
              effLimit cfg.numIterations
          · right
            rw [hA5]
            have hnotfr : ¬ (jetPassStep G cfg bal ls).fruitless <
                effLimit cfg.numFruitlessIterations := fun h => hC ⟨hI, h⟩
            omega
          · left; omega
        · intro j hj
          rw [hlen] at hj
          have hlt : j < ls.records.length := by omega
          rw [hnr, jetGetD_concat_lt _ _ _ hlt]
          exact hcont j hlt

/-- Claim C1 (counterexample): `refine()` does not return true iff the cut
strictly decreased.  On `jetGraphB` with one JET iteration, fruitless
threshold 3/4 and penalty factor 0, the pass moves node 0 and lowers the
cut from 4 to 3; the improvement `4 - 3 = 1` fails the threshold test
`1 > (1 - 3/4) · 4`, so the tracked `best_cut` stays 4 and `refine()`
returns false — yet the returned (rolled-back) partition has cut 3,
strictly below the initial cut 4. -/
theorem C1_counterexample :
    (jetRefine jetGraphB cfgC1x id jetPartB).returnValue = false ∧
    edgeCut jetGraphB (jetRefine jetGraphB cfgC1x id jetPartB).partition <
      (jetRefine jetGraphB cfgC1x id jetPartB).initialCut := by
  constructor
  · decide
  · decide

/-- Claim C1 (amended): `refine()` returns `initial_cut > best_cut` for the
tracked `best_cut` variable, which only records improvements that pass the
fruitless-threshold test; a true return value still guarantees that the
rolled-back partition's cut strictly beats the initial cut (the snapshot
cut never exceeds the tracked `best_cut`), but not conversely. -/
theorem C1_refine_return (G : Graph) (cfg : JetConfig)
    (bal : Partition → Partition) (p0 : Partition) :
    ((jetRefine G cfg bal p0).returnValue = true ↔
      (jetRefine G cfg bal p0).trackedBestCut <
        (jetRefine G cfg bal p0).initialCut) ∧
    ((jetRefine G cfg bal p0).returnValue = true →
      edgeCut G (jetRefine G cfg bal p0).partition <
        (jetRefine G cfg bal p0).initialCut) := by
  obtain ⟨c1, c2, c3, c4, c5, c6, c7⟩ :=
    jetLoop_spec G cfg bal (edgeCut G p0) (effLimit cfg.numIterations)
      (jetInitLoopState G p0) rfl (effLimit_pos cfg.numIterations) rfl
      (by intro j hj; simp [jetInitLoopState] at hj) rfl (le_refl _) rfl
  have e3 : (jetRefine G cfg bal p0).partition =
      (jetLoop G cfg bal (effLimit cfg.numIterations)
        (jetInitLoopState G p0)).snap.blocks := rfl
  have e4 : (jetRefine G cfg bal p0).initialCut = edgeCut G p0 := rfl
  have e5 : (jetRefine G cfg bal p0).trackedBestCut =
      (jetLoop G cfg bal (effLimit cfg.numIterations)
        (jetInitLoopState G p0)).bestCut := rfl
  have e6 : (jetRefine G cfg bal p0).returnValue =
      decide ((jetLoop G cfg bal (effLimit cfg.numIterations)
        (jetInitLoopState G p0)).bestCut < edgeCut G p0) := rfl
  constructor
  · rw [e6, e5, e4]
    exact decide_eq_true_iff
  · intro hret
    rw [e6] at hret
    have hlt := of_decide_eq_true hret
    rw [e3, e4, ← c5]
    exact lt_of_le_of_lt c6 hlt

/-- Claim C1 (witness): on the 4-path with threshold 1/2 the single pass
lowers the cut from 1 to 0, the improvement passes the threshold test,
`refine()` returns true, and by the amended theorem the returned partition
strictly improves on the initial cut. -/
theorem C1_witness :
    (jetRefine pathGraph4 cfgC1w id jetPartA).returnValue = true ∧
    edgeCut pathGraph4 (jetRefine pathGraph4 cfgC1w id jetPartA).partition <
      (jetRefine pathGraph4 cfgC1w id jetPartA).initialCut :=
  ⟨by decide, (C1_refine_return pathGraph4 cfgC1w id jetPartA).2 (by decide)⟩

/-- Claim C6 (counterexample): with `num_iterations = 0` the claim predicts
an exit as soon as the iteration counter reaches 0 — i.e. after the first
pass at the latest — but the code maps 0 to `INT_MAX`, and on the 4-path
the loop runs a second pass (the first pass improves the cut and resets
the fruitless counter, shown by the first record) before the fruitless
limit 1 stops it. -/
theorem C6_counterexample :
    cfgC6x.numIterations = 0 ∧
    ((jetRefine pathGraph4 cfgC6x id jetPartA).records.getD 0 (0, 0)).2 = 0 ∧
    (jetRefine pathGraph4 cfgC6x id jetPartA).numPasses = 2 := by
  refine ⟨rfl, ?_, ?_⟩
  · decide
  · decide

/-- Claim C6 (amended): for every configuration, balancer and input
partition, `refine()` runs at least one pass and exits exactly when the
effective limits are hit, where a configured limit of 0 means `INT_MAX`:
on exit the iteration count reached `effLimit num_iterations` or the last
pass's fruitless counter reached `effLimit num_fruitless_iterations`, and
after every earlier pass both counters were strictly below their effective
limits; the returned partition is the best snapshot, whose cut is the
minimum of the initial cut and all per-pass cuts. -/
theorem C6_loop_exit (G : Graph) (cfg : JetConfig)
    (bal : Partition → Partition) (p0 : Partition) :
    (jetRefine G cfg bal p0).numPasses =
      (jetRefine G cfg bal p0).records.length ∧
    1 ≤ (jetRefine G cfg bal p0).numPasses ∧
    (effLimit cfg.numIterations ≤ (jetRefine G cfg bal p0).numPasses ∨
      effLimit cfg.numFruitlessIterations ≤
        ((jetRefine G cfg bal p0).records.getD
          ((jetRefine G cfg bal p0).records.length - 1) (0, 0)).2) ∧
    (∀ j, j + 1 < (jetRefine G cfg bal p0).records.length →
      j + 1 < effLimit cfg.numIterations ∧
      ((jetRefine G cfg bal p0).records.getD j (0, 0)).2 <
        effLimit cfg.numFruitlessIterations) ∧
    edgeCut G (jetRefine G cfg bal p0).partition =
      (((jetRefine G cfg bal p0).records.map Prod.fst).foldl min
        (jetRefine G cfg bal p0).initialCut) := by
  obtain ⟨c1, c2, c3, c4, c5, c6, c7⟩ :=
    jetLoop_spec G cfg bal (edgeCut G p0) (effLimit cfg.numIterations)
      (jetInitLoopState G p0) rfl (effLimit_pos cfg.numIterations) rfl
      (by intro j hj; simp [jetInitLoopState] at hj) rfl (le_refl _) rfl
  have e1 : (jetRefine G cfg bal p0).numPasses =
      (jetLoop G cfg bal (effLimit cfg.numIterations)
        (jetInitLoopState G p0)).iter := rfl
  have e2 : (jetRefine G cfg bal p0).records =
      (jetLoop G cfg bal (effLimit cfg.numIterations)
        (jetInitLoopState G p0)).records := rfl
  have e3 : (jetRefine G cfg bal p0).partition =
      (jetLoop G cfg bal (effLimit cfg.numIterations)
        (jetInitLoopState G p0)).snap.blocks := rfl
  have e4 : (jetRefine G cfg bal p0).initialCut = edgeCut G p0 := rfl
  refine ⟨?_, ?_, ?_, ?_, ?_⟩
  · rw [e1, e2]; exact c1
  · rw [e1, c1]
    have hc2 : (0 : Nat) <
        (jetLoop G cfg bal (effLimit cfg.numIterations)
          (jetInitLoopState G p0)).records.length := c2
    omega
  · rw [e1, e2]; exact c3
  · intro j hj
    rw [e2] at hj ⊢
    exact c4 j hj
  · rw [e3, e2, e4, ← c5]
    exact c7

/-- Claim C6 (witness): on the C6 counterexample run the loop performed
two passes, and the amended theorem's minimality clause confirms that
after the first pass both counters were strictly below their effective
limits (which is why the loop continued). -/
theorem C6_witness :
    0 + 1 < (jetRefine pathGraph4 cfgC6x id jetPartA).records.length ∧
    (0 + 1 < effLimit cfgC6x.numIterations ∧
      ((jetRefine pathGraph4 cfgC6x id jetPartA).records.getD 0 (0, 0)).2 <
        effLimit cfgC6x.numFruitlessIterations) :=
  ⟨by decide, (C6_loop_exit pathGraph4 cfgC6x id jetPartA).2.2.2.1 0 (by decide)⟩

end KaMinPar
